import Mathlib

/-!
Shallow embedding of the convex-hull / voltage-curve core of `src/hull.py`
(class `QueryConvexHull`), together with proofs of the specification claims.

Numbers are modelled as rationals (`ℚ`): the Python code computes with IEEE
floats, and every claim under study is stated by the spec "with exact
arithmetic", which the rational embedding realises.  Element symbols are
modelled as lists of characters (Python strings are character sequences).
-/

namespace Matador

/-- Extended rationals: the value set of Python floats actually used by
`hull.py` for the `num_a` field, which is either a finite quotient
`stoich/(1-stoich)` or `float('inf')`. -/
inductive XQ where
  | fin : ℚ → XQ
  | inf : XQ
deriving DecidableEq

/-- Strict order on `XQ`, mirroring `<` on Python floats restricted to
finite values and `+inf`. -/
def XQ.ltv : XQ → XQ → Prop
  | .fin a, .fin b => a < b
  | .fin _, .inf => True
  | .inf, _ => False

instance : LT XQ := ⟨XQ.ltv⟩

instance : (a b : XQ) → Decidable (a < b)
  | .fin a, .fin b => decidable_of_iff (a < b) Iff.rfl
  | .fin _, .inf => .isTrue trivial
  | .inf, _ => .isFalse (fun h => h)

/-- A point of the composition/formation-energy plane: `(stoich, formation)`
as assembled into the `structures` array of `binary_hull` (line 223). -/
abbrev Pt := ℚ × ℚ

/-- Slope of the straight line through two points (line 255 of `hull.py`:
`gradient = (energy_pair[1] - energy_pair[0]) / (comp_pair[1] - comp_pair[0])`). -/
def lineGrad (a b : Pt) : ℚ := (b.2 - a.2) / (b.1 - a.1)

/-- Value at abscissa `t` of the straight line through `a` and `b`. -/
def lineValAt (a b : Pt) (t : ℚ) : ℚ := lineGrad a b * t + (a.2 - lineGrad a b * a.1)

/-- `p` is a lowest point of the set at its own composition. -/
def lowestAtB (pts : List Pt) (p : Pt) : Bool :=
  pts.all (fun q => decide (q.1 = p.1 → p.2 ≤ q.2))

/-- `p` lies strictly below every chord of the point set spanning its
composition (stated cross-multiplied, so no division is involved). -/
def belowChordsB (pts : List Pt) (p : Pt) : Bool :=
  pts.all (fun a => pts.all (fun b =>
    decide (a.1 < p.1 → p.1 < b.1 →
      p.2 * (b.1 - a.1) < a.2 * (b.1 - p.1) + b.2 * (p.1 - a.1))))

/-- Characterisation of the vertices of the lower convex hull of a planar
point set: lowest at its composition and strictly below every spanning chord.
This models the combination of `scipy.spatial.ConvexHull` (line 227) with the
filter `structures[vertex, 1] <= 0` (lines 234-239) of `binary_hull`: for the
point sets the code assembles (endpoints `(0,0)`, `(1,0)` and structures with
composition strictly inside `(0,1)`), the full-hull vertices of non-positive
energy are exactly the lower-hull vertices, and the spec fixes the vertex set
as a geometric invariant independent of the hull algorithm. -/
def isLowerVertexB (pts : List Pt) (p : Pt) : Bool :=
  lowestAtB pts p && belowChordsB pts p

/-- Propositional form of `lowestAtB`. -/
def LowestAt (pts : List Pt) (p : Pt) : Prop :=
  ∀ q ∈ pts, q.1 = p.1 → p.2 ≤ q.2

/-- Propositional form of `belowChordsB`. -/
def BelowChords (pts : List Pt) (p : Pt) : Prop :=
  ∀ a ∈ pts, ∀ b ∈ pts, a.1 < p.1 → p.1 < b.1 →
    p.2 * (b.1 - a.1) < a.2 * (b.1 - p.1) + b.2 * (p.1 - a.1)

/-- Insertion step of sorting the hull vertices by composition
(models `np.argsort(hull_comp)`, lines 245-248). -/
def insertX (p : Pt) : List Pt → List Pt
  | [] => [p]
  | q :: l => if p.1 ≤ q.1 then p :: q :: l else q :: insertX p l

/-- Insertion sort of points by composition. -/
def sortX : List Pt → List Pt
  | [] => []
  | p :: l => insertX p (sortX l)

/-- Collapse consecutive duplicated compositions.  `qhull` reports a single
vertex for coincident points; two distinct lower-hull vertices always have
distinct compositions, so this only drops exact duplicates. -/
def dedupX : List Pt → List Pt
  | [] => []
  | [p] => [p]
  | p :: q :: l => if p.1 = q.1 then dedupX (p :: l) else p :: dedupX (q :: l)

/-- The sorted lower-hull vertex list (`hull_comp`/`hull_energy` zipped),
as produced by lines 229-248 of `binary_hull`. -/
def hullPts (pts : List Pt) : List Pt :=
  dedupX (sortX (pts.filter (fun p => isLowerVertexB pts p)))

/-- `hull_comp` after sorting (line 248). -/
def hullCompList (pts : List Pt) : List ℚ := (hullPts pts).map (fun p => p.1)

/-- `hull_energy` after sorting (line 245). -/
def hullEnergyList (pts : List Pt) : List ℚ := (hullPts pts).map (fun p => p.2)

/-- Model of `bisect.bisect_left` on a sorted list: the leftmost insertion
position, i.e. the number of elements strictly below `x`. -/
def bisect_left (l : List ℚ) (x : ℚ) : ℕ :=
  l.countP (fun c => decide (c < x))

/-- Python sequence indexing, including the negative-index convention
(`a[-1]` is the last element); out-of-range reads are given the junk value
`0` (they do not occur under the hypotheses of the theorems below). -/
def pyGet (l : List ℚ) (i : ℤ) : ℚ :=
  if i < 0 then l.getD (l.length - (-i).toNat) 0 else l.getD i.toNat 0

/-- Hull distance of one structure point, exactly as computed by lines
249-259 of `binary_hull`: locate the bracketing pair of hull compositions
with `bisect_left`, build the line through it, and take the vertical gap. -/
def hull_dist_at (hull_comp hull_energy : List ℚ) (p : Pt) : ℚ :=
  let i : ℤ := (bisect_left hull_comp p.1 : ℤ)
  let e1 := pyGet hull_energy (i - 1)
  let e2 := pyGet hull_energy i
  let c1 := pyGet hull_comp (i - 1)
  let c2 := pyGet hull_comp i
  let gradient := (e2 - e1) / (c2 - c1)
  let intercept := ((e2 + e1) - gradient * (c2 + c1)) / 2
  p.2 - (gradient * p.1 + intercept)

/-- The assembled point set of `binary_hull` (lines 213-223): the B-element
chemical potential becomes the endpoint `(0,0)`, the A-element one `(1,0)`,
and every structure contributes `(stoich, formation)`. -/
def assembled (inner : List Pt) : List Pt :=
  (0, 0) :: inner ++ [(1, 0)]

/-- Helper for Python's substring test: `n` begins `h`. -/
def leadsList : List Char → List Char → Bool
  | [], _ => true
  | _ :: _, [] => false
  | a :: as, b :: bs => a == b && leadsList as bs

/-- Helper for Python's substring test: `n` occurs contiguously in the
second list. -/
def occursIn (n : List Char) : List Char → Bool
  | [] => leadsList n []
  | c :: t => leadsList n (c :: t) || occursIn n t

/-- Python's `needle in haystack` on strings (substring containment), used at
line 204 of `binary_hull` (`if x_elem in elem[0]`). -/
def pyIn (needle hay : List Char) : Bool := occursIn needle hay

/-- A chemical-potential record (`self.match[i]`) as used by `binary_hull`:
its stoichiometry is the single entry `[[element, 1]]` (built in
`get_chempots`), so only the element symbol and the per-atom enthalpy are
relevant. -/
structure MuRec where
  element : List Char
  enthalpy_per_atom : ℚ
deriving DecidableEq

/-- A structure record from the query cursor, with the fields read by lines
176-210 of `binary_hull`. -/
structure DocRec where
  stoichiometry : List (List Char × ℚ)
  num_fu : ℚ
  enthalpy : ℚ
  enthalpy_per_atom : ℚ
  cell_volume : ℚ
deriving DecidableEq

/-- The quantities that `binary_hull` computes for one record. -/
structure RecordOut where
  enthalpy_per_b : ℚ
  formation : ℚ
  stoich : ℚ
  num_a : XQ
  volume_per_b : ℚ
deriving DecidableEq

/-- Abnormal outcomes of the per-record loop: a Python `IndexError` from an
out-of-range sequence access, or the `exit()` call at line 186. -/
inductive PyErr where
  | indexError : PyErr
  | exitCalled : PyErr
deriving DecidableEq

/-- Python sequence access that can raise `IndexError`. -/
def listIdx {α : Type} (l : List α) (i : ℕ) : Except PyErr α :=
  match l.get? i with
  | some a => Except.ok a
  | none => Except.error PyErr.indexError

/-- One iteration of the per-record loop of `binary_hull` (lines 176-210):
enthalpy and volume per unit B, formation energy (per-atom enthalpy minus the
matching chemical-potential contributions), mole fraction `stoich` of the
first element, and `num_a`.  The unconditional reads `doc['stoichiometry'][0]`
and `doc['stoichiometry'][1]` at line 177 are the first two steps. -/
def processRecord (x_elem one_minus_x_elem : List Char) (mus : List MuRec)
    (doc : DocRec) : Except PyErr RecordOut := do
  let s0 ← listIdx doc.stoichiometry 0
  let s1 ← listIdx doc.stoichiometry 1
  let atoms_per_fu := s0.2 + s1.2
  let num_b ←
    if s0.1 = one_minus_x_elem then Except.ok s0.2
    else if s1.1 = one_minus_x_elem then Except.ok s1.2
    else Except.error PyErr.exitCalled
  let enthalpy_per_b := doc.enthalpy / (num_b * doc.num_fu)
  let volume_per_b := doc.cell_volume / (num_b * doc.num_fu)
  let formation := mus.foldl (fun f mu =>
    doc.stoichiometry.foldl (fun g sj =>
      if mu.element = sj.1 then g - mu.enthalpy_per_atom * sj.2 / atoms_per_fu else g) f)
    doc.enthalpy_per_atom
  let stoich := doc.stoichiometry.foldl (fun st e =>
    if pyIn x_elem e.1 then e.2 / atoms_per_fu else st) 0
  let num_a := if stoich = 1 then XQ.inf else XQ.fin (stoich / (1 - stoich))
  Except.ok ⟨enthalpy_per_b, formation, stoich, num_a, volume_per_b⟩

/-- Boltzmann constant in eV/K as hard-coded at line 31 (`8.61733e-5`). -/
def K2eV : ℚ := 861733 / 10 ^ 10

/-- The effective stability cutoff chosen by `QueryConvexHull.__init__`
(lines 33-38): a supplied temperature wins and is converted with `K2eV`,
otherwise a supplied energy cutoff is used unchanged, otherwise `0`. -/
def effective_hull_cutoff (hull_temp hull_cutoff : Option ℚ) : ℚ :=
  match hull_temp with
  | some t => t * K2eV
  | none =>
    match hull_cutoff with
    | some c => c
    | none => 0

/-- The `stable_num` conversion of `voltage_curve` (lines 353-357): the
sentinel for composition `1` is the literal `1e5`, not `float('inf')`. -/
def stable_num (stable_comp : List ℚ) : List ℚ :=
  stable_comp.map (fun c => if 1 - c = 0 then 100000 else c / (1 - c))

/-- `voltage_curve` (lines 347-370): voltages and `num_a` abscissae, walking
the stable points from the A-richest end (`i = len-1`) down to `i = 1`, then
duplicating the last voltage at abscissa `0`.  Out-of-range reads (which do
not occur for the index range used) are defaulted to `0`. -/
def voltage_curve (stable_enthalpy_per_b stable_comp : List ℚ) (mu_a : ℚ) :
    List ℚ × List ℚ :=
  let nums := stable_num stable_comp
  let n := nums.length
  let V := (List.range (n - 1)).map (fun k =>
    -(stable_enthalpy_per_b.getD (n - 1 - k) 0 - stable_enthalpy_per_b.getD (n - 2 - k) 0) /
      (nums.getD (n - 1 - k) 0 - nums.getD (n - 2 - k) 0) + mu_a)
  let x := (List.range (n - 1)).map (fun k => nums.getD (n - 1 - k) 0)
  (V ++ [V.getLastD 0], x ++ [0])

/-- Modelled from the spec (§4.2, §4.3): the conversion of a stable
composition to `num_a = stoich/(1-stoich)` with the value `+infinity` (not a
finite sentinel) at composition `1`, as the claim states it. -/
def stable_num_specInf (stable_comp : List ℚ) : List XQ :=
  stable_comp.map (fun c => if c = 1 then XQ.inf else XQ.fin (c / (1 - c)))

/-- Modelled from the spec (§4.3): the voltage of one adjacent pair,
`-(ΔE_per_b)/(Δnum_a) + μ_A`; when one abscissa is `+infinity` the difference
is infinite, the quotient is `0` and the voltage is exactly `μ_A`. -/
def voltage_pair_specInf (e2 e1 : ℚ) (n2 n1 : XQ) (mu_a : ℚ) : ℚ :=
  match n2, n1 with
  | XQ.fin a, XQ.fin b => -(e2 - e1) / (a - b) + mu_a
  | _, _ => mu_a

/-- Modelled from the spec (§4.3): the claimed voltage list, pairing each
stable point with the next A-richer one (the list reversed so the A-richest
pair comes first), with `num_a` taken to be `+infinity` at composition `1`,
and the last voltage duplicated. -/
def voltage_curve_specInf (stable_enthalpy_per_b stable_comp : List ℚ)
    (mu_a : ℚ) : List ℚ :=
  let nums := stable_num_specInf stable_comp
  let rn := nums.reverse
  let re := stable_enthalpy_per_b.reverse
  let V := ((rn.zip rn.tail).zip (re.zip re.tail)).map (fun pe =>
    voltage_pair_specInf pe.2.1 pe.2.2 pe.1.1 pe.1.2 mu_a)
  V ++ [V.getLastD 0]

/-- The claimed voltage curve amended only in the sentinel: adjacent pairs
processed from the A-richest end, with `num_a = 1e5` at composition `1` (as
the code computes), and the terminal duplicate at abscissa `0`. -/
def voltage_curve_pairs1e5 (stable_enthalpy_per_b stable_comp : List ℚ)
    (mu_a : ℚ) : List ℚ × List ℚ :=
  let nums := stable_num stable_comp
  let rn := nums.reverse
  let re := stable_enthalpy_per_b.reverse
  let V := ((rn.zip rn.tail).zip (re.zip re.tail)).map (fun pe =>
    -(pe.2.1 - pe.2.2) / (pe.1.1 - pe.1.2) + mu_a)
  (V ++ [V.getLastD 0], (rn.zip rn.tail).map (fun ab => ab.1) ++ [0])

/-- `interp_steps` (lines 429-434): start from zeros and, for each sample
`(x_val, y_val)` in list order, overwrite every grid entry whose abscissa is
`≤ x_val` with `y_val`. -/
def interp_steps (xspace : List ℚ) (x y : List ℚ) : List ℚ :=
  (x.zip y).foldl
    (fun yspace p => (xspace.zip yspace).map (fun gc => if gc.1 ≤ p.1 then p.2 else gc.2))
    (xspace.map (fun _ => (0 : ℚ)))

/-- Pointwise value of `interp_steps` at one grid abscissa: the `y` of the
last sample in list order whose `x` is at least the grid abscissa, `0` if
there is none. -/
def stepValueAt (g : ℚ) (samples : List (ℚ × ℚ)) : ℚ :=
  samples.foldl (fun acc p => if g ≤ p.1 then p.2 else acc) 0

/-- Modelled from the claim's words: resampling that assigns to each grid
point the `y` of the largest-capacity sample whose capacity is `≤` the grid
point (`0` when there is none). -/
def largestLEValue (g : ℚ) (samples : List (ℚ × ℚ)) : ℚ :=
  match (samples.filter (fun p => decide (p.1 ≤ g))).foldl
      (fun acc p =>
        match acc with
        | Option.none => Option.some p
        | Option.some q => if q.1 < p.1 then Option.some p else Option.some q)
      Option.none with
  | Option.some q => q.2
  | Option.none => 0

/-- Modelled from the claim's words: the full grid resampled by the
largest-capacity-sample-below rule. -/
def interp_steps_claimLE (xspace : List ℚ) (x y : List ℚ) : List ℚ :=
  xspace.map (fun g => largestLEValue g (x.zip y))

/-- A structure as seen by `metastable_voltage_profile`: an element of
`hull_cursor` after the `capacity` annotation of lines 379-381. -/
structure PStruct where
  num_a : XQ
  capacity : ℚ
  enthalpy_per_b : ℚ
deriving DecidableEq

/-- Finite value of an `XQ` (junk `0` on `inf`; every use below is guarded
so that the argument is finite). -/
def XQ.toQ : XQ → ℚ
  | .fin q => q
  | .inf => 0

/-- `get_voltage_profile_segment` (lines 420-427): the voltage between two
structures; a transition whose predecessor has `num_a = inf` is overwritten
to `0`. -/
def voltage_segment (snew sold : PStruct) (mu_a : ℚ) : ℚ :=
  if sold.num_a = XQ.inf then 0
  else -(snew.enthalpy_per_b - sold.enthalpy_per_b) /
    (XQ.toQ snew.num_a - XQ.toQ sold.num_a) + mu_a

/-- `pick_metastable_structure` (lines 406-418): draw a random index until
the drawn structure has `num_a` strictly below `last`'s; after 1000 failed
draws the code calls `exit(...)` (modelled by `none`), and a draw from an
empty pool raises (also `none`).  Randomness is an oracle `rng` consulted at
successive indices, a draw being `rng i % pool.length`. -/
def pick_metastable_structure (rng : ℕ → ℕ) (i : ℕ) (pool : List PStruct)
    (last : PStruct) : ℕ → Option (PStruct × ℕ)
  | 0 => none
  | fuel + 1 =>
    if pool.length = 0 then none
    else
      if (pool.getD (rng i % pool.length) ⟨XQ.fin 0, 0, 0⟩).num_a < last.num_a then
        some (pool.getD (rng i % pool.length) ⟨XQ.fin 0, 0, 0⟩, i + 1)
      else pick_metastable_structure rng (i + 1) pool last fuel

/-- One sampled discharge path (the inner `while not delithiated` loop,
lines 456-469): repeatedly pick a structure below the current one, truncate
the pool before its first occurrence (`path_structures[:idx]`), record a
voltage segment unless the predecessor is the infinite reference, and stop
at `num_a = 0`.  Returns the accepted path, the voltage profile and the next
oracle index; `none` models `exit`/crash (and fuel is sized so that it never
runs out before the pool does). -/
def walk (rng : ℕ → ℕ) (mu_a : ℚ) :
    ℕ → ℕ → List PStruct → PStruct → Option (List PStruct × List (ℚ × ℚ) × ℕ)
  | 0, _, _, _ => none
  | fuel + 1, i, pool, prev =>
    match pick_metastable_structure rng i pool prev 1000 with
    | none => none
    | some (next, i1) =>
      let idx := pool.indexOf next
      let pool1 := pool.take idx
      let seg : List (ℚ × ℚ) :=
        if prev.num_a = XQ.inf then []
        else [(next.capacity, voltage_segment next prev mu_a)]
      if next.num_a = XQ.fin 0 then some ([next], seg, i1)
      else
        match walk rng mu_a fuel i1 pool1 next with
        | none => none
        | some (path, prof, i2) => some (next :: path, seg ++ prof, i2)

/-- The voltage profile a path generates: one segment per transition whose
predecessor is finite (the transition out of the `num_a = inf` reference
contributes nothing, by the guard at line 464). -/
def profileOf (mu_a : ℚ) : PStruct → List PStruct → List (ℚ × ℚ)
  | _, [] => []
  | prev, p :: rest =>
    (if prev.num_a = XQ.inf then [] else [(p.capacity, voltage_segment p prev mu_a)]) ++
      profileOf mu_a p rest

/-- Static configuration of `metastable_voltage_profile`: the candidate pool
(`hull_cursor[:-1]` with capacities attached), the reference cathode
(`hull_cursor[-1]`), the A chemical potential and the random oracle. -/
structure SamplerCfg where
  rng : ℕ → ℕ
  pool : List PStruct
  reference : PStruct
  mu_a : ℚ

/-- Mutable state of the sampling loop of `metastable_voltage_profile`
(lines 436-479). -/
structure SState where
  running : List ℚ
  advanced : List ℚ
  diff : List ℚ
  last_converged : Bool
  num_converged : ℕ
  num_contribs : ℕ
  all_profiles : List (List (ℚ × ℚ))
  rngIdx : ℕ

/-- `num_divisions = 100` (line 388). -/
def num_divisions : ℕ := 100

/-- `np.linspace(0, 2000, num_divisions)` (line 393). -/
def capacity_space : List ℚ :=
  (List.range num_divisions).map (fun i => 2000 * i / (num_divisions - 1))

/-- `tolerance = 1e-9 * num_divisions` (line 396). -/
def tolerance : ℚ := 1 / 10 ^ 9 * num_divisions

/-- `convergence_window = 3` (line 438). -/
def convergence_window : ℕ := 3

/-- `num_trials = 100000` (line 442). -/
def num_trials : ℕ := 100000

/-- The state just before the first iteration of the sampling loop
(lines 388-442): zero profiles, unit difference profile, no contributions. -/
def initState : SState where
  running := List.replicate num_divisions 0
  advanced := List.replicate num_divisions 0
  diff := List.replicate num_divisions 1
  last_converged := false
  num_converged := 0
  num_contribs := 0
  all_profiles := []
  rngIdx := 0

/-- The convergence bookkeeping of lines 444-452 (run when the summed
absolute difference profile is below tolerance but the window is not yet
exceeded): `last_converged` is set, and `num_converged` is bumped (to `2`
from a non-converged state, since both `if`s at lines 448-452 fire). -/
def convUpdate (s : SState) : SState :=
  if (s.diff.map (fun d => |d|)).sum < tolerance then
    { s with last_converged := true,
             num_converged := (if ¬s.last_converged then 1 else s.num_converged) + 1 }
  else s

/-- One iteration of the `while not converged` loop (lines 443-479).
`none` means the loop stops iterating: the convergence break, the trial-cap
break, or a fatal `exit`/crash inside the path sampling.  Otherwise the
updated state is returned: a path is sampled and, if it produced a nonempty
voltage profile, it is folded into the running average. -/
def sampleStep (cfg : SamplerCfg) (s : SState) : Option SState :=
  if (s.diff.map (fun d => |d|)).sum < tolerance ∧ s.num_converged > convergence_window then
    none
  else
    if (convUpdate s).num_contribs > num_trials then none
    else
      match walk cfg.rng cfg.mu_a (cfg.pool.length + 1) (convUpdate s).rngIdx
          cfg.pool cfg.reference with
      | none => none
      | some (_path, profile, i2) =>
        if profile = [] then some { convUpdate s with rngIdx := i2 }
        else
          let adv := List.zipWith (· + ·) (convUpdate s).advanced
            (interp_steps capacity_space (profile.map (fun p => p.1))
              (profile.map (fun p => p.2)))
          let nc := (convUpdate s).num_contribs + 1
          let run := adv.map (fun v => v / (nc : ℚ))
          some { convUpdate s with
            advanced := adv
            num_contribs := nc
            diff := List.zipWith (· - ·) run (convUpdate s).running
            running := run
            all_profiles := (convUpdate s).all_profiles ++ [profile]
            rngIdx := i2 }

/-- Iterate the sampling loop `n` times; `none` as soon as it stops. -/
def iterSteps (cfg : SamplerCfg) : ℕ → SState → Option SState
  | 0, s => some s
  | n + 1, s =>
    match sampleStep cfg s with
    | none => none
    | some s1 => iterSteps cfg n s1

/-- A degenerate candidate pool for the sampler: the single structure is the
B-element chemical potential itself (`num_a = 0`), so every sampled path
jumps from the infinite reference straight to it and contributes no voltage
segment. -/
def degenerateCfg : SamplerCfg where
  rng := fun _ => 0
  pool := [⟨XQ.fin 0, 0, 0⟩]
  reference := ⟨XQ.inf, 0, 0⟩
  mu_a := 0

/-- The fields of a `hull_cursor` entry that lines 279-291 read or write. -/
structure HRec where
  num_a : XQ := XQ.fin 0
  hull_distance : ℚ := 0
  enthalpy_per_b : ℚ := 0
  enthalpy_per_atom : ℚ := 0
deriving DecidableEq

instance : Inhabited HRec := ⟨{}⟩

/-- Assembly of `hull_cursor` (lines 279-291): annotate the two
chemical-potential records, put the B one (`match[1]`) first, append every
structure whose hull distance is within `cutoff + 1e-12` (annotated with its
hull distance), and end with the A one (`match[0]`, `num_a = inf`). -/
def buildHullCursor (match0 match1 : HRec) (cursor : List HRec)
    (hull_dist : List ℚ) (cutoff : ℚ) : List HRec :=
  let m0 : HRec := { match0 with
    hull_distance := 0, enthalpy_per_b := match0.enthalpy_per_atom, num_a := XQ.inf }
  let m1 : HRec := { match1 with
    hull_distance := 0, enthalpy_per_b := match1.enthalpy_per_atom, num_a := XQ.fin 0 }
  let middle := (List.range' 1 (hull_dist.length - 2)).filterMap (fun ind =>
    let d := hull_dist.getD ind 0
    if d ≤ cutoff + 1 / 10 ^ 12 then some { cursor.getD (ind - 1) default with hull_distance := d }
    else none)
  m1 :: middle ++ [m0]

/-- C8: when both `hull_temp` and `hull_cutoff` are supplied the temperature
wins and the effective cutoff is `hull_temp * 8.61733e-5`; when only
`hull_cutoff` is supplied it is used unchanged. -/
theorem hull_cutoff_temperature_precedence :
    (∀ t c : ℚ, effective_hull_cutoff (some t) (some c) = t * (861733 / 10 ^ 10)) ∧
    (∀ c : ℚ, effective_hull_cutoff none (some c) = c) :=
  ⟨fun _ _ => rfl, fun _ => rfl⟩

/-- The last element of a list of the shape `a :: l ++ [b]`. -/
theorem getLast?_cons_concat {α : Type} (a b : α) (l : List α) :
    ((a :: l) ++ [b]).getLast? = some b :=
  List.getLast?_concat _

/-- C10: for every input and every cutoff, `hull_cursor` begins with the
B-element chemical-potential record (`num_a = 0`, `hull_distance = 0`,
`enthalpy_per_b` equal to its `enthalpy_per_atom`) and ends with the
A-element one (`num_a = +inf`, `hull_distance = 0`), which is the reference
cathode the sampler takes from the end of the list. -/
theorem hull_cursor_endpoints (match0 match1 : HRec) (cursor : List HRec)
    (hull_dist : List ℚ) (cutoff : ℚ) :
    (buildHullCursor match0 match1 cursor hull_dist cutoff).head? =
      some { match1 with
             hull_distance := 0
             enthalpy_per_b := match1.enthalpy_per_atom
             num_a := XQ.fin 0 } ∧
    (buildHullCursor match0 match1 cursor hull_dist cutoff).getLast? =
      some { match0 with
             hull_distance := 0
             enthalpy_per_b := match0.enthalpy_per_atom
             num_a := XQ.inf } := by
  refine ⟨rfl, ?_⟩
  exact getLast?_cons_concat _ _ _

/-- C9 (amended): a record whose stoichiometry has length 1 makes the
per-record loop of `binary_hull` raise `IndexError` at line 177 (the second
stoichiometry entry is read unconditionally), aborting the analysis instead
of being skipped with a warning. -/
theorem singleton_stoichiometry_index_error (x_elem one_minus_x_elem : List Char)
    (mus : List MuRec) (doc : DocRec) (h : doc.stoichiometry.length = 1) :
    processRecord x_elem one_minus_x_elem mus doc = Except.error PyErr.indexError := by
  cases doc with
  | mk st nf en epa cv =>
    obtain ⟨a, ha⟩ : ∃ a, st = [a] := List.length_eq_one.mp h
    subst ha
    rfl

/-- C9 (counterexample to the claim as stated): a concrete record with a
single-element stoichiometry is not processed without an out-of-bounds
access: the loop body returns `IndexError` on it. -/
theorem singleton_stoichiometry_crashes_concrete :
    processRecord [('A' : Char)] [('B' : Char)] []
      { stoichiometry := [([('A' : Char)], 1)], num_fu := 1, enthalpy := -1,
        enthalpy_per_atom := -1, cell_volume := 10 } =
      Except.error PyErr.indexError := rfl

/-- C9 (witness): the amended theorem applied at a concrete record. -/
theorem singleton_stoichiometry_index_error_witness :
    processRecord [('B' : Char)] [('A' : Char)] []
      { stoichiometry := [([('B' : Char)], 2)], num_fu := 1, enthalpy := -4,
        enthalpy_per_atom := -2, cell_volume := 7 } =
      Except.error PyErr.indexError :=
  singleton_stoichiometry_index_error _ _ _ _ (by rfl)

/-- Any structure returned by `pick_metastable_structure` has `num_a`
strictly below that of the `last` structure: the only `return` is guarded by
`test['num_a'] < last['num_a']` (line 414). -/
theorem pick_num_a_lt (rng : ℕ → ℕ) (pool : List PStruct) (last : PStruct) :
    ∀ fuel i t j, pick_metastable_structure rng i pool last fuel = some (t, j) →
      t.num_a < last.num_a := by
  intro fuel
  induction fuel with
  | zero =>
    intro i t j h
    simp [pick_metastable_structure] at h
  | succ n ih =>
    intro i t j h
    rw [pick_metastable_structure] at h
    split at h
    · exact absurd h (by simp)
    · split at h
      · rename_i hlt
        obtain ⟨rfl, rfl⟩ : _ ∧ i + 1 = j := by simpa using h
        simpa [List.getD] using hlt
      · exact ih _ _ _ h

/-- Core monotonicity of the path walk, shared by several results below. -/
theorem walk_chain (rng : ℕ → ℕ) (mu_a : ℚ) :
    ∀ (fuel i : ℕ) (pool : List PStruct) (prev : PStruct)
      (path : List PStruct) (prof : List (ℚ × ℚ)) (i2 : ℕ),
      walk rng mu_a fuel i pool prev = some (path, prof, i2) →
      List.Chain' (fun a b => b.num_a < a.num_a) (prev :: path) := by
  intro fuel
  induction fuel with
  | zero =>
    intro i pool prev path prof i2 h
    simp [walk] at h
  | succ n ih =>
    intro i pool prev path prof i2 h
    rw [walk] at h
    cases hp : pick_metastable_structure rng i pool prev 1000 with
    | none => rw [hp] at h; exact absurd h (by simp)
    | some v =>
      obtain ⟨next, i1⟩ := v
      rw [hp] at h
      have hlt : next.num_a < prev.num_a := pick_num_a_lt rng pool prev 1000 i next i1 hp
      by_cases h0 : next.num_a = XQ.fin 0
      · simp only [h0, if_pos rfl] at h
        obtain ⟨rfl, -, -⟩ : [next] = path ∧ _ ∧ i1 = i2 := by
          simpa using h
        exact List.chain'_pair.mpr (h0 ▸ hlt)
      · simp only [if_neg h0] at h
        cases hw : walk rng mu_a n i1 (pool.take (pool.indexOf next)) next with
        | none => rw [hw] at h; exact absurd h (by simp)
        | some w =>
          obtain ⟨path1, prof1, i3⟩ := w
          rw [hw] at h
          obtain ⟨rfl, -, -⟩ : next :: path1 = path ∧ _ ∧ i3 = i2 := by
            simpa using h
          have hc := ih i1 (pool.take (pool.indexOf next)) next path1 prof1 i3 hw
          exact List.chain'_cons.mpr ⟨hlt, hc⟩

/-- C4: every discharge path accepted by the sampler is strictly decreasing
in `num_a`: whenever the inner path loop completes, the accepted structures,
prefixed by the starting reference, form a `num_a`-strictly-decreasing
chain, because `pick_metastable_structure` only ever returns a structure
whose `num_a` is strictly below the previous one. -/
theorem walk_path_strictly_decreasing (rng : ℕ → ℕ) (mu_a : ℚ)
    (fuel i : ℕ) (pool : List PStruct) (prev : PStruct)
    (path : List PStruct) (prof : List (ℚ × ℚ)) (i2 : ℕ)
    (h : walk rng mu_a fuel i pool prev = some (path, prof, i2)) :
    List.Chain' (fun a b => b.num_a < a.num_a) (prev :: path) :=
  walk_chain rng mu_a fuel i pool prev path prof i2 h

theorem XQ.fin_lt_fin {a b : ℚ} : (XQ.fin a < XQ.fin b) ↔ a < b := Iff.rfl

theorem XQ.fin_lt_inf (a : ℚ) : XQ.fin a < XQ.inf := trivial

theorem XQ.not_inf_lt (x : XQ) : ¬XQ.inf < x := fun h => h

/-- C4 (witness): a concrete two-step discharge path sampled from a
two-structure pool is strictly decreasing in `num_a`. -/
theorem walk_path_strictly_decreasing_witness :
    List.Chain' (fun a b : PStruct => b.num_a < a.num_a)
      (⟨XQ.inf, 0, 0⟩ :: [⟨XQ.fin 1, 10, 5⟩, ⟨XQ.fin 0, 0, 3⟩]) :=
  walk_path_strictly_decreasing (fun n => if n = 0 then 1 else 0) 0 3 0
    [⟨XQ.fin 0, 0, 3⟩, ⟨XQ.fin 1, 10, 5⟩] ⟨XQ.inf, 0, 0⟩
    [⟨XQ.fin 1, 10, 5⟩, ⟨XQ.fin 0, 0, 3⟩] [(0, -2)] 2 (by
      simp [walk, pick_metastable_structure, voltage_segment, XQ.toQ,
        List.indexOf_cons, XQ.fin_lt_fin, XQ.fin_lt_inf]
      norm_num)

/-- The voltage profile a completed walk returns is `profileOf` of its
accepted path. -/
theorem walk_profile_eq (rng : ℕ → ℕ) (mu_a : ℚ) :
    ∀ (fuel i : ℕ) (pool : List PStruct) (prev : PStruct)
      (path : List PStruct) (prof : List (ℚ × ℚ)) (i2 : ℕ),
      walk rng mu_a fuel i pool prev = some (path, prof, i2) →
      prof = profileOf mu_a prev path := by
  intro fuel
  induction fuel with
  | zero =>
    intro i pool prev path prof i2 h
    simp [walk] at h
  | succ n ih =>
    intro i pool prev path prof i2 h
    rw [walk] at h
    cases hp : pick_metastable_structure rng i pool prev 1000 with
    | none => rw [hp] at h; exact absurd h (by simp)
    | some v =>
      obtain ⟨next, i1⟩ := v
      rw [hp] at h
      by_cases h0 : next.num_a = XQ.fin 0
      · simp only [h0, if_pos rfl] at h
        obtain ⟨rfl, hpr, -⟩ : [next] = path ∧ _ = prof ∧ i1 = i2 := by simpa using h
        simp [profileOf, ← hpr]
      · simp only [if_neg h0] at h
        cases hw : walk rng mu_a n i1 (pool.take (pool.indexOf next)) next with
        | none => rw [hw] at h; exact absurd h (by simp)
        | some w =>
          obtain ⟨path1, prof1, i3⟩ := w
          rw [hw] at h
          obtain ⟨rfl, hpr, -⟩ : next :: path1 = path ∧ _ = prof ∧ i3 = i2 := by
            simpa using h
          rw [← hpr, profileOf, ih i1 (pool.take (pool.indexOf next)) next path1 prof1 i3 hw]

/-- Along a `num_a`-strictly-decreasing path whose head is finite, the
profile is exactly one segment per adjacent pair of accepted structures. -/
theorem profileOf_fin_eq_zip (mu_a : ℚ) :
    ∀ (path : List PStruct) (prev : PStruct), prev.num_a ≠ XQ.inf →
      List.Chain' (fun a b => b.num_a < a.num_a) (prev :: path) →
      profileOf mu_a prev path = ((prev :: path).zip path).map
        (fun ab => (ab.2.capacity, voltage_segment ab.2 ab.1 mu_a)) := by
  intro path
  induction path with
  | nil => intro prev _ _; simp [profileOf]
  | cons p rest ih =>
    intro prev hfin hchain
    have hchain1 : List.Chain' (fun a b : PStruct => b.num_a < a.num_a) (p :: rest) :=
      hchain.tail
    have hpfin : p.num_a ≠ XQ.inf := by
      intro hpi
      have := (List.chain'_cons.mp hchain).1
      rw [hpi] at this
      exact XQ.not_inf_lt _ this
    rw [profileOf, if_neg hfin, ih p hpfin hchain1]
    simp [List.zip]

/-- C7 (amended): the transition out of the `num_a = +inf` reference cathode
contributes no `(capacity, voltage)` segment to a sampled path's voltage
profile: the guard at line 464 skips the append, so the profile consists of
exactly one segment per adjacent pair of accepted structures.  The helper
`get_voltage_profile_segment` would return voltage exactly `0` for a
transition from an infinite `num_a`, but it is never invoked on one. -/
theorem first_step_contributes_no_segment :
    (∀ (snew sold : PStruct) (mu_a : ℚ), sold.num_a = XQ.inf →
      voltage_segment snew sold mu_a = 0) ∧
    (∀ (rng : ℕ → ℕ) (mu_a : ℚ) (fuel i : ℕ) (pool : List PStruct) (ref : PStruct)
      (path : List PStruct) (prof : List (ℚ × ℚ)) (i2 : ℕ),
      ref.num_a = XQ.inf →
      walk rng mu_a fuel i pool ref = some (path, prof, i2) →
      prof = (path.zip path.tail).map
        (fun ab => (ab.2.capacity, voltage_segment ab.2 ab.1 mu_a))) := by
  constructor
  · intro snew sold mu_a h
    simp [voltage_segment, h]
  · intro rng mu_a fuel i pool ref path prof i2 href h
    have hprof := walk_profile_eq rng mu_a fuel i pool ref path prof i2 h
    have hchain := walk_chain rng mu_a fuel i pool ref path prof i2 h
    cases path with
    | nil => simp [profileOf] at hprof; simp [hprof]
    | cons p rest =>
      have hpfin : p.num_a ≠ XQ.inf := by
        intro hpi
        have := (List.chain'_cons.mp hchain).1
        rw [hpi, href] at this
        exact XQ.not_inf_lt _ this
      rw [hprof, profileOf, if_pos href,
        profileOf_fin_eq_zip mu_a rest p hpfin hchain.tail]
      simp [List.zip]

/-- C7 (counterexample to the claim as stated): a concrete sampled path
whose first accepted step is the transition from the infinite reference;
the resulting voltage profile is the single segment `(0, -2)` of the second
step, and it contains no segment with voltage `0`: the first accepted step
contributed no segment at all, rather than one with voltage exactly `0`. -/
theorem first_step_segment_missing_concrete :
    walk (fun n => if n = 0 then 1 else 0) 0 3 0
      [⟨XQ.fin 0, 0, 3⟩, ⟨XQ.fin 1, 10, 5⟩] ⟨XQ.inf, 0, 0⟩ =
      some ([⟨XQ.fin 1, 10, 5⟩, ⟨XQ.fin 0, 0, 3⟩], [((0 : ℚ), (-2 : ℚ))], 2) ∧
    ∀ q ∈ [((0 : ℚ), (-2 : ℚ))], q.2 ≠ 0 := by
  constructor
  · simp [walk, pick_metastable_structure, voltage_segment, XQ.toQ,
      List.indexOf_cons, XQ.fin_lt_fin, XQ.fin_lt_inf]
    norm_num
  · intro q hq
    simp at hq
    rw [hq]
    norm_num

/-- C7 (witness): the amended theorem applied to the concrete run above. -/
theorem first_step_contributes_no_segment_witness :
    voltage_segment ⟨XQ.fin 1, 10, 5⟩ ⟨XQ.inf, 0, 0⟩ 7 = 0 ∧
    [((0 : ℚ), (-2 : ℚ))] =
      (([⟨XQ.fin 1, 10, 5⟩, ⟨XQ.fin 0, 0, 3⟩] : List PStruct).zip
        [⟨XQ.fin 0, 0, 3⟩]).map
        (fun ab => (ab.2.capacity, voltage_segment ab.2 ab.1 0)) :=
  ⟨first_step_contributes_no_segment.1 _ _ 7 rfl,
   first_step_contributes_no_segment.2 (fun n => if n = 0 then 1 else 0) 0 3 0
     [⟨XQ.fin 0, 0, 3⟩, ⟨XQ.fin 1, 10, 5⟩] ⟨XQ.inf, 0, 0⟩
     [⟨XQ.fin 1, 10, 5⟩, ⟨XQ.fin 0, 0, 3⟩] [((0 : ℚ), (-2 : ℚ))] 2 rfl
     (by
       simp [walk, pick_metastable_structure, voltage_segment, XQ.toQ,
         List.indexOf_cons, XQ.fin_lt_fin, XQ.fin_lt_inf]
       norm_num)⟩

/-- Each overwrite pass of `interp_steps` keeps the grid length. -/
theorem interpFold_length (xs : List ℚ) :
    ∀ (samples : List (ℚ × ℚ)) (init : List ℚ), init.length = xs.length →
      (samples.foldl
        (fun yspace p => (xs.zip yspace).map (fun gc => if gc.1 ≤ p.1 then p.2 else gc.2))
        init).length = xs.length := by
  intro samples
  induction samples with
  | nil => intro init h; simpa using h
  | cons p t ih =>
    intro init h
    rw [List.foldl_cons]
    exact ih _ (by simp [List.length_zip, h])

/-- Pointwise view of the overwrite passes of `interp_steps`. -/
theorem interpFold_getD (xs : List ℚ) :
    ∀ (samples : List (ℚ × ℚ)) (init : List ℚ), init.length = xs.length →
      ∀ i : ℕ, i < xs.length →
      (samples.foldl
        (fun yspace p => (xs.zip yspace).map (fun gc => if gc.1 ≤ p.1 then p.2 else gc.2))
        init).getD i 0 =
      samples.foldl (fun acc p => if xs.getD i 0 ≤ p.1 then p.2 else acc)
        (init.getD i 0) := by
  intro samples
  induction samples with
  | nil => intro init _ i _; rfl
  | cons p t ih =>
    intro init hlen i hi
    rw [List.foldl_cons, List.foldl_cons]
    have h1 : ((xs.zip init).map (fun gc => if gc.1 ≤ p.1 then p.2 else gc.2)).length =
        xs.length := by simp [List.length_zip, hlen]
    rw [ih _ h1 i hi]
    congr 1
    have hzi : i < ((xs.zip init).map
        (fun gc => if gc.1 ≤ p.1 then p.2 else gc.2)).length := h1 ▸ hi
    have hii : i < init.length := hlen ▸ hi
    rw [List.getD_eq_getElem _ _ hzi, List.getElem_map, List.getElem_zip,
      List.getD_eq_getElem _ _ hi, List.getD_eq_getElem _ _ hii]

/-- The left fold keeping the `y` of the last accepted sample equals the
last element of the filtered-and-projected list. -/
theorem foldl_lastSat (g : ℚ) :
    ∀ (samples : List (ℚ × ℚ)) (a : ℚ),
      samples.foldl (fun acc p => if g ≤ p.1 then p.2 else acc) a =
        ((samples.filter (fun p => decide (g ≤ p.1))).map (fun p => p.2)).getLastD a := by
  intro samples
  induction samples with
  | nil => intro a; rfl
  | cons p t ih =>
    intro a
    rw [List.foldl_cons]
    by_cases hp : g ≤ p.1
    · rw [if_pos hp, ih p.2, List.filter_cons_of_pos (by simpa using hp),
        List.map_cons, List.getLastD_cons]
    · rw [if_neg hp, ih a, List.filter_cons_of_neg (by simpa using hp)]

/-- In a strictly descending list of samples the last one is the minimum. -/
theorem descending_getLastD_min :
    ∀ (l : List (ℚ × ℚ)) (d : ℚ × ℚ),
      List.Pairwise (fun p q : ℚ × ℚ => q.1 < p.1) l →
      ∀ p ∈ l, (l.getLastD d).1 ≤ p.1 := by
  intro l
  induction l with
  | nil => intro d _ p hp; simp at hp
  | cons q t ih =>
    intro d hpw p hp
    rw [List.getLastD_cons]
    rcases List.mem_cons.mp hp with hpq | hpt
    · subst hpq
      cases t with
      | nil => exact le_refl _
      | cons r tt =>
        have hlast : (r :: tt).getLastD p ∈ r :: tt := by
          rw [List.getLastD_cons]
          exact List.getLastD_mem_cons _ _
        exact le_of_lt ((List.pairwise_cons.mp hpw).1 _ hlast)
    · exact ih q hpw.of_cons p hpt

/-- C6 (amended): `interp_steps` assigns to each grid point the voltage of
the LAST sample in list order whose capacity is at least the grid point
(`0` when every sample is below it); for the strictly decreasing capacity
sequences produced by a discharge path this is the sample with the SMALLEST
capacity at or above the grid point — not the largest-capacity sample at or
below it, as the claim stated. -/
theorem interp_steps_nearest_at_or_above (xs x y : List ℚ)
    (hlen : x.length ≤ y.length)
    (hdec : List.Pairwise (fun a b : ℚ => b < a) x) (i : ℕ)
    (hxi : i < xs.length) :
    (interp_steps xs x y).getD i 0 =
      (((x.zip y).filter (fun p => decide (xs.getD i 0 ≤ p.1))).map
        (fun p => p.2)).getLastD 0 ∧
    ∀ p ∈ (x.zip y).filter (fun p => decide (xs.getD i 0 ≤ p.1)),
      (((x.zip y).filter (fun p => decide (xs.getD i 0 ≤ p.1))).getLastD
        (xs.getD i 0, 0)).1 ≤ p.1 := by
  constructor
  · have hinit : (xs.map (fun _ => (0 : ℚ))).length = xs.length := by simp
    have h := interpFold_getD xs (x.zip y) (xs.map (fun _ => (0 : ℚ))) hinit i hxi
    have hget : (xs.map (fun _ => (0 : ℚ))).getD i 0 = 0 := by
      rw [List.getD_eq_getElem _ _ (hinit ▸ hxi), List.getElem_map]
    rw [interp_steps, h, hget]
    exact foldl_lastSat _ (x.zip y) 0
  · intro p hp
    have hzw : List.Pairwise (fun p q : ℚ × ℚ => q.1 < p.1) (x.zip y) := by
      have hfst : (x.zip y).map Prod.fst = x := List.map_fst_zip x y hlen
      have h2 : List.Pairwise (fun a b : ℚ => b < a) ((x.zip y).map Prod.fst) := by
        rw [hfst]; exact hdec
      exact List.pairwise_map.mp h2
    have hsub : List.Pairwise (fun p q : ℚ × ℚ => q.1 < p.1)
        ((x.zip y).filter (fun p => decide (xs.getD i 0 ≤ p.1))) :=
      List.Pairwise.sublist (List.filter_sublist _) hzw
    exact descending_getLastD_min _ _ hsub p hp

/-- C6 (counterexample to the claim as stated): with the decreasing sample
list `(10, 5), (4, 7)` of a discharge path and the single grid point `6`,
`interp_steps` yields `5` (the voltage of the sample at capacity `10`, the
smallest at or above the grid point), whereas the claimed rule — the voltage
of the largest-capacity sample `≤` the grid point, here the sample `(4, 7)`
— yields `7`. -/
theorem interp_steps_largest_le_counterexample :
    interp_steps [6] [10, 4] [5, 7] = [5] ∧
    interp_steps_claimLE [6] [10, 4] [5, 7] = [7] ∧ (5 : ℚ) ≠ 7 := by
  refine ⟨?_, ?_, by norm_num⟩
  · norm_num [interp_steps, List.zip, List.foldl]
  · norm_num [interp_steps_claimLE, largestLEValue, List.zip, List.filter, List.foldl]

/-- C6 (witness): the amended theorem applied to the same concrete input. -/
theorem interp_steps_nearest_at_or_above_witness :
    (interp_steps [6] [10, 4] [5, 7]).getD 0 0 =
      ((([(10 : ℚ), 4].zip [(5 : ℚ), 7]).filter
        (fun p => decide (([(6 : ℚ)].getD 0 0) ≤ p.1))).map (fun p => p.2)).getLastD 0 ∧
    ∀ p ∈ ([(10 : ℚ), 4].zip [(5 : ℚ), 7]).filter
        (fun p => decide (([(6 : ℚ)].getD 0 0) ≤ p.1)),
      ((([(10 : ℚ), 4].zip [(5 : ℚ), 7]).filter
        (fun p => decide (([(6 : ℚ)].getD 0 0) ≤ p.1))).getLastD
          ([(6 : ℚ)].getD 0 0, 0)).1 ≤ p.1 :=
  interp_steps_nearest_at_or_above [6] [10, 4] [5, 7] (by norm_num)
    (by norm_num [List.pairwise_cons]) 0 (by norm_num)

/-- The index-based downward loop of `voltage_curve` is the map over
adjacent pairs of the reversed lists. -/
theorem range_map_eq_revzip (F : ℚ → ℚ → ℚ → ℚ → ℚ) (nums epb : List ℚ)
    (hlen : epb.length = nums.length) :
    (List.range (nums.length - 1)).map (fun k =>
      F (nums.getD (nums.length - 1 - k) 0) (nums.getD (nums.length - 2 - k) 0)
        (epb.getD (nums.length - 1 - k) 0) (epb.getD (nums.length - 2 - k) 0)) =
    ((nums.reverse.zip nums.reverse.tail).zip (epb.reverse.zip epb.reverse.tail)).map
      (fun pe => F pe.1.1 pe.1.2 pe.2.1 pe.2.2) := by
  apply List.ext_get
  · simp [List.length_zip, List.length_tail, List.length_reverse, hlen]
  · intro k h1 h2
    have hk : k < nums.length - 1 := by simpa using h1
    have hn1 : nums.length - 1 - k < nums.length := by omega
    have hn2 : nums.length - 2 - k < nums.length := by omega
    have he1 : nums.length - 1 - k < epb.length := by omega
    have he2 : nums.length - 2 - k < epb.length := by omega
    simp only [List.get_eq_getElem, List.getElem_map, List.getElem_range,
      List.getElem_zip, List.getElem_tail, List.getElem_reverse]
    rw [List.getD_eq_getElem _ _ hn1, List.getD_eq_getElem _ _ hn2,
      List.getD_eq_getElem _ _ he1, List.getD_eq_getElem _ _ he2]
    congr 2 <;> omega

/-- The abscissa loop of `voltage_curve` is the map of first components
over adjacent pairs of the reversed list. -/
theorem range_map_eq_revzip_fst (nums : List ℚ) :
    (List.range (nums.length - 1)).map (fun k => nums.getD (nums.length - 1 - k) 0) =
    (nums.reverse.zip nums.reverse.tail).map (fun ab => ab.1) := by
  apply List.ext_get
  · simp [List.length_zip, List.length_tail, List.length_reverse]
  · intro k h1 h2
    have hk : k < nums.length - 1 := by simpa using h1
    have hn1 : nums.length - 1 - k < nums.length := by omega
    simp only [List.get_eq_getElem, List.getElem_map, List.getElem_range,
      List.getElem_zip, List.getElem_reverse]
    rw [List.getD_eq_getElem _ _ hn1]

/-- C3 (amended): `voltage_curve` produces, for each adjacent pair of stable
points processed from the A-richest end toward the B-richest end, the
voltage `-(ΔE_per_b)/(Δnum_a) + μ_A`, and appends a terminal point
duplicating the last voltage at abscissa `num_a = 0` (zero capacity) — with
`num_a` converted using the finite sentinel `1e5` at composition `1`, not
`+infinity`. -/
theorem voltage_curve_adjacent_pairs (stable_enthalpy_per_b stable_comp : List ℚ)
    (mu_a : ℚ) (hlen : stable_enthalpy_per_b.length = stable_comp.length) :
    voltage_curve stable_enthalpy_per_b stable_comp mu_a =
      voltage_curve_pairs1e5 stable_enthalpy_per_b stable_comp mu_a := by
  have hne : (stable_num stable_comp).length = stable_comp.length := by
    simp [stable_num]
  have hlen2 : stable_enthalpy_per_b.length = (stable_num stable_comp).length := by
    rw [hne]; exact hlen
  have hV := range_map_eq_revzip
    (fun n2 n1 e2 e1 => -(e2 - e1) / (n2 - n1) + mu_a)
    (stable_num stable_comp) stable_enthalpy_per_b hlen2
  have hX := range_map_eq_revzip_fst (stable_num stable_comp)
  unfold voltage_curve voltage_curve_pairs1e5
  rw [Prod.mk.injEq]
  constructor
  · rw [hV]
  · rw [hX]

/-- C3 (counterexample to the claim as stated): with stable compositions
`[0, 1]`, `enthalpy_per_b` values `[0, 100000]` and `μ_A = 0`, the code
computes the A-richest-pair voltage with the finite sentinel `1e5`, giving
`-1`; the claimed conversion (`num_a = +infinity` at composition `1`) gives
voltage exactly `μ_A = 0`. -/
theorem voltage_curve_inf_counterexample :
    (voltage_curve [0, 100000] [0, 1] 0).1 = [-1, -1] ∧
    voltage_curve_specInf [0, 100000] [0, 1] 0 = [0, 0] ∧ (-1 : ℚ) ≠ 0 := by
  refine ⟨?_, ?_, by norm_num⟩
  · norm_num [voltage_curve, stable_num, List.range_succ]
  · norm_num [voltage_curve_specInf, stable_num_specInf, voltage_pair_specInf,
      List.zip]

/-- C3 (witness): the amended theorem applied to the concrete stable lists
of the counterexample. -/
theorem voltage_curve_adjacent_pairs_witness :
    voltage_curve [0, 100000] [0, 1] 0 = voltage_curve_pairs1e5 [0, 100000] [0, 1] 0 :=
  voltage_curve_adjacent_pairs [0, 100000] [0, 1] 0 (by norm_num)

/-- In the degenerate pool, every sampled path immediately reaches the
B-element structure and contributes an empty voltage profile. -/
theorem walk_degenerate (i : ℕ) :
    walk degenerateCfg.rng degenerateCfg.mu_a (degenerateCfg.pool.length + 1) i
      degenerateCfg.pool degenerateCfg.reference =
      some ([⟨XQ.fin 0, 0, 0⟩], [], i + 1) := by
  simp [walk, pick_metastable_structure, degenerateCfg, XQ.fin_lt_inf]

/-- The summed absolute unit difference profile is far above tolerance. -/
theorem unit_diff_not_converged :
    ¬((List.replicate num_divisions (1 : ℚ)).map (fun d => |d|)).sum < tolerance := by
  rw [List.map_replicate, abs_one, List.sum_replicate]
  norm_num [tolerance, num_divisions]

/-- One iteration on the degenerate pool only advances the oracle index:
the empty profile is not folded in and `num_contribs` stays `0`, so the
trial-cap break can never fire. -/
theorem sampleStep_degenerate (s : SState)
    (hd : s.diff = List.replicate num_divisions 1) (hc : s.num_contribs = 0) :
    sampleStep degenerateCfg s = some { s with rngIdx := s.rngIdx + 1 } := by
  have hnc : ¬((s.diff.map (fun d => |d|)).sum < tolerance) := by
    rw [hd]; exact unit_diff_not_converged
  have hcu : convUpdate s = s := by rw [convUpdate, if_neg hnc]
  rw [sampleStep, if_neg (by exact fun h => hnc h.1)]
  rw [hcu]
  rw [if_neg (by rw [hc]; norm_num [num_trials])]
  rw [walk_degenerate s.rngIdx]
  rfl

/-- The degenerate sampling loop never stops, whatever the iteration count. -/
theorem iter_degenerate : ∀ (n : ℕ) (s : SState),
    s.diff = List.replicate num_divisions 1 → s.num_contribs = 0 →
    iterSteps degenerateCfg n s ≠ none := by
  intro n
  induction n with
  | zero => intro s _ _ h; exact absurd h (by simp [iterSteps])
  | succ m ih =>
    intro s hd hc
    rw [iterSteps, sampleStep_degenerate s hd hc]
    exact ih _ hd hc

/-- C5 (counterexample to the claim as stated): on the degenerate
single-structure pool the sampling loop is still running after 100001
iterations — the hard stop does not bound the number of loop iterations,
because iterations whose path contributes no voltage segment never advance
`num_contribs`. -/
theorem sampler_trial_cap_counterexample :
    iterSteps degenerateCfg 100001 initState ≠ none :=
  iter_degenerate 100001 initState rfl rfl

/-- One successful iteration adds at most one contribution and never starts
from a count above the cap. -/
theorem sampleStep_contribs_le (cfg : SamplerCfg) (s s1 : SState)
    (h : sampleStep cfg s = some s1) : s1.num_contribs ≤ num_trials + 1 := by
  rw [sampleStep] at h
  split at h
  · exact absurd h (by simp)
  · split at h
    · exact absurd h (by simp)
    · rename_i hcap
      have hle : (convUpdate s).num_contribs ≤ num_trials := by omega
      cases hw : walk cfg.rng cfg.mu_a (cfg.pool.length + 1) (convUpdate s).rngIdx
          cfg.pool cfg.reference with
      | none => rw [hw] at h; exact absurd h (by simp)
      | some w =>
        obtain ⟨path, profile, i2⟩ := w
        rw [hw] at h
        dsimp only at h
        by_cases hpr : profile = []
        · rw [if_pos hpr] at h
          obtain rfl := Option.some.inj h
          exact le_trans hle (Nat.le_succ _)
        · rw [if_neg hpr] at h
          obtain rfl := Option.some.inj h
          exact Nat.succ_le_succ hle

/-- C5 (amended): the hard stop bounds the number of accumulated paths, not
the number of loop iterations: along any run of the sampling loop,
`num_contribs` never exceeds `num_trials + 1 = 100001` (the check
`num_contribs > num_trials` precedes each sample, so at most one
contribution lands after the cap is reached); the loop itself need not
terminate, since iterations whose sampled path yields an empty voltage
profile do not advance the counter. -/
theorem sampler_contribs_bounded (cfg : SamplerCfg) :
    ∀ (n : ℕ) (s s1 : SState), s.num_contribs ≤ num_trials + 1 →
      iterSteps cfg n s = some s1 → s1.num_contribs ≤ num_trials + 1 := by
  intro n
  induction n with
  | zero =>
    intro s s1 h0 h
    obtain rfl : s = s1 := by simpa [iterSteps] using h
    exact h0
  | succ m ih =>
    intro s s1 h0 h
    rw [iterSteps] at h
    cases hs : sampleStep cfg s with
    | none => rw [hs] at h; exact absurd h (by simp)
    | some s2 =>
      rw [hs] at h
      exact ih s2 s1 (sampleStep_contribs_le cfg s s2 hs) h

/-- C5 (witness): the bound applied to one concrete iteration of the
degenerate configuration. -/
theorem sampler_contribs_bounded_witness :
    ({ initState with rngIdx := 1 } : SState).num_contribs ≤ num_trials + 1 :=
  sampler_contribs_bounded degenerateCfg 1 initState { initState with rngIdx := 1 }
    (by norm_num [initState, num_trials])
    (by
      have h1 : sampleStep degenerateCfg initState = some { initState with rngIdx := 1 } := by
        rw [sampleStep_degenerate initState rfl rfl]
        rfl
      simp [iterSteps, h1])

theorem lowestAt_iff (pts : List Pt) (p : Pt) :
    lowestAtB pts p = true ↔ LowestAt pts p := by
  simp only [lowestAtB, LowestAt, List.all_eq_true, decide_eq_true_eq]

theorem belowChords_iff (pts : List Pt) (p : Pt) :
    belowChordsB pts p = true ↔ BelowChords pts p := by
  simp only [belowChordsB, BelowChords, List.all_eq_true, decide_eq_true_eq]

theorem isLowerVertex_iff (pts : List Pt) (p : Pt) :
    isLowerVertexB pts p = true ↔ LowestAt pts p ∧ BelowChords pts p := by
  rw [isLowerVertexB, Bool.and_eq_true, lowestAt_iff, belowChords_iff]

theorem mem_insertX (p a : Pt) : ∀ l : List Pt, a ∈ insertX p l ↔ a = p ∨ a ∈ l := by
  intro l
  induction l with
  | nil => simp [insertX]
  | cons q t ih =>
    rw [insertX]
    by_cases h : p.1 ≤ q.1
    · rw [if_pos h]; simp
    · rw [if_neg h]
      simp only [List.mem_cons, ih]
      tauto

theorem pairwise_insertX (p : Pt) :
    ∀ l : List Pt, List.Pairwise (fun u v : Pt => u.1 ≤ v.1) l →
      List.Pairwise (fun u v : Pt => u.1 ≤ v.1) (insertX p l) := by
  intro l
  induction l with
  | nil => intro _; simp [insertX]
  | cons q t ih =>
    intro hpw
    rw [insertX]
    by_cases h : p.1 ≤ q.1
    · rw [if_pos h]
      refine List.pairwise_cons.mpr ⟨?_, hpw⟩
      intro b hb
      rcases List.mem_cons.mp hb with rfl | hbt
      · exact h
      · exact le_trans h ((List.pairwise_cons.mp hpw).1 b hbt)
    · rw [if_neg h]
      refine List.pairwise_cons.mpr ⟨?_, ih (List.pairwise_cons.mp hpw).2⟩
      intro b hb
      rcases (mem_insertX p b t).mp hb with rfl | hbt
      · exact le_of_lt (lt_of_not_le h)
      · exact (List.pairwise_cons.mp hpw).1 b hbt

theorem mem_sortX (a : Pt) : ∀ l : List Pt, a ∈ sortX l ↔ a ∈ l := by
  intro l
  induction l with
  | nil => simp [sortX]
  | cons q t ih => rw [sortX, mem_insertX]; simp [ih]

theorem pairwise_sortX : ∀ l : List Pt, List.Pairwise (fun u v : Pt => u.1 ≤ v.1) (sortX l) := by
  intro l
  induction l with
  | nil => simp [sortX]
  | cons q t ih => exact pairwise_insertX q (sortX t) ih

theorem mem_dedupX : ∀ l : List Pt, ∀ a ∈ dedupX l, a ∈ l := by
  intro l
  induction l using dedupX.induct with
  | case1 => intro a ha; simp [dedupX] at ha
  | case2 p => intro a ha; simpa [dedupX] using ha
  | case3 p q t heq ih =>
    intro a ha
    rw [dedupX, if_pos heq] at ha
    rcases List.mem_cons.mp (ih a ha) with rfl | hat
    · exact List.mem_cons_self _ _
    · exact List.mem_cons_of_mem _ (List.mem_cons_of_mem _ hat)
  | case4 p q t hne ih =>
    intro a ha
    rw [dedupX, if_neg hne] at ha
    rcases List.mem_cons.mp ha with rfl | hat
    · exact List.mem_cons_self _ _
    · exact List.mem_cons_of_mem _ (ih a hat)

theorem fst_mem_dedupX : ∀ l : List Pt, ∀ a ∈ l, ∃ b ∈ dedupX l, b.1 = a.1 := by
  intro l
  induction l using dedupX.induct with
  | case1 => intro a ha; simp at ha
  | case2 p =>
    intro a ha
    rcases List.mem_singleton.mp ha with rfl
    exact ⟨a, by simp [dedupX], rfl⟩
  | case3 p q t heq ih =>
    intro a ha
    rw [dedupX, if_pos heq]
    rcases List.mem_cons.mp ha with rfl | hat
    · exact ih a (List.mem_cons_self _ _)
    · rcases List.mem_cons.mp hat with rfl | hat2
      · obtain ⟨b, hb, hb1⟩ := ih p (List.mem_cons_self _ _)
        exact ⟨b, hb, by rw [hb1, heq]⟩
      · exact ih a (List.mem_cons_of_mem _ hat2)
  | case4 p q t hne ih =>
    intro a ha
    rw [dedupX, if_neg hne]
    rcases List.mem_cons.mp ha with rfl | hat
    · exact ⟨a, List.mem_cons_self _ _, rfl⟩
    · obtain ⟨b, hb, hb1⟩ := ih a hat
      exact ⟨b, List.mem_cons_of_mem _ hb, hb1⟩

theorem pairwise_lt_dedupX : ∀ l : List Pt,
    List.Pairwise (fun u v : Pt => u.1 ≤ v.1) l →
    List.Pairwise (fun u v : Pt => u.1 < v.1) (dedupX l) := by
  intro l
  induction l using dedupX.induct with
  | case1 => intro _; simp [dedupX]
  | case2 p => intro _; simp [dedupX]
  | case3 p q t heq ih =>
    intro hpw
    rw [dedupX, if_pos heq]
    refine ih (List.pairwise_cons.mpr ⟨?_, ?_⟩)
    · intro b hb
      exact (List.pairwise_cons.mp hpw).1 b (List.mem_cons_of_mem _ hb)
    · exact (List.pairwise_cons.mp (List.pairwise_cons.mp hpw).2).2
  | case4 p q t hne ih =>
    intro hpw
    rw [dedupX, if_neg hne]
    refine List.pairwise_cons.mpr ⟨?_, ih (List.pairwise_cons.mp hpw).2⟩
    intro b hb
    have hpq : p.1 < q.1 :=
      lt_of_le_of_ne ((List.pairwise_cons.mp hpw).1 q (List.mem_cons_self _ _)) hne
    rcases List.mem_cons.mp (mem_dedupX _ b hb) with rfl | hbt
    · exact hpq
    · exact lt_of_lt_of_le hpq
        ((List.pairwise_cons.mp (List.pairwise_cons.mp hpw).2).1 b hbt)

/-- On a strictly sorted list, the elements before the `bisect_left`
position are exactly those strictly below the probe. -/
theorem countP_lt_get (x : ℚ) :
    ∀ l : List ℚ, List.Pairwise (· < ·) l →
      ∀ j (hj : j < l.length), j < l.countP (fun c => decide (c < x)) →
        l.get ⟨j, hj⟩ < x := by
  intro l
  induction l with
  | nil => intro _ j hj _; simp at hj
  | cons c t ih =>
    intro hpw j hj hcount
    rw [List.countP_cons] at hcount
    cases j with
    | zero =>
      show c < x
      by_contra hcx
      have ht0 : t.countP (fun e => decide (e < x)) = 0 := by
        rw [List.countP_eq_zero]
        intro e he
        simp only [decide_eq_true_eq]
        intro hex
        exact absurd hex (not_lt.mpr (le_trans (le_of_not_lt hcx)
          (le_of_lt ((List.pairwise_cons.mp hpw).1 e he))))
      rw [ht0] at hcount
      simp [hcx] at hcount
    | succ k =>
      rw [List.get_cons_succ]
      refine ih (List.pairwise_cons.mp hpw).2 k _ ?_
      have : (if decide (c < x) = true then 1 else 0) ≤ 1 := by split <;> omega
      omega

/-- On a strictly sorted list, the elements from the `bisect_left` position
onward are at least the probe. -/
theorem countP_le_get (x : ℚ) :
    ∀ l : List ℚ, List.Pairwise (· < ·) l →
      ∀ j (hj : j < l.length), l.countP (fun c => decide (c < x)) ≤ j →
        x ≤ l.get ⟨j, hj⟩ := by
  intro l
  induction l with
  | nil => intro _ j hj _; simp at hj
  | cons c t ih =>
    intro hpw j hj hcount
    rw [List.countP_cons] at hcount
    by_cases hc : c < x
    · rw [if_pos (by simpa using hc)] at hcount
      cases j with
      | zero => omega
      | succ k =>
        rw [List.get_cons_succ]
        exact ih (List.pairwise_cons.mp hpw).2 k _ (by omega)
    · cases j with
      | zero => exact le_of_not_lt hc
      | succ k =>
        rw [List.get_cons_succ]
        have hmem : t.get ⟨k, by simpa using hj⟩ ∈ t := List.get_mem _ _ _
        exact le_trans (le_of_not_lt hc)
          (le_of_lt ((List.pairwise_cons.mp hpw).1 _ hmem))

/-- The cross-multiplied chord inequality says exactly that `p` is strictly
below the line through `a` and `b`. -/
theorem cross_iff_lineVal (a b p : Pt) (hab : a.1 < b.1) :
    (p.2 * (b.1 - a.1) < a.2 * (b.1 - p.1) + b.2 * (p.1 - a.1)) ↔
      p.2 < lineValAt a b p.1 := by
  have hc : (0 : ℚ) < b.1 - a.1 := by linarith
  have hcne : b.1 - a.1 ≠ 0 := ne_of_gt hc
  rw [lineValAt, lineGrad]
  rw [show a.2 * (b.1 - p.1) + b.2 * (p.1 - a.1) =
      ((b.2 - a.2) / (b.1 - a.1) * p.1 + (a.2 - (b.2 - a.2) / (b.1 - a.1) * a.1)) *
        (b.1 - a.1) from by field_simp; ring]
  exact mul_lt_mul_right hc

theorem lineValAt_left (a b : Pt) : lineValAt a b a.1 = a.2 := by
  rw [lineValAt]; ring

theorem lineValAt_right (a b : Pt) (h : a.1 ≠ b.1) : lineValAt a b b.1 = b.2 := by
  have hne : b.1 - a.1 ≠ 0 := sub_ne_zero.mpr (Ne.symm h)
  rw [lineValAt, lineGrad]
  field_simp
  ring

/-- An affine function strictly above a level at a point to the left and at
least that level at a point to the right stays strictly above in between. -/
theorem affine_bound (m c d xL xR t : ℚ) (h1 : xL < t) (h2 : t < xR)
    (hL : d < m * xL + c) (hR : d ≤ m * xR + c) : d < m * t + c := by
  nlinarith [mul_pos (sub_pos.mpr h2) (sub_pos.mpr hL),
    mul_nonneg (le_of_lt (sub_pos.mpr h1)) (sub_nonneg.mpr hR)]

/-- Any nonempty finite point list has a member minimising a value, with
the leftmost composition among the minimisers. -/
theorem exists_lex_argmin (S : List Pt) (f : Pt → ℚ) (p0 : Pt) (hp0 : p0 ∈ S) :
    ∃ q ∈ S, (∀ r ∈ S, f q ≤ f r) ∧ ∀ r ∈ S, f r = f q → q.1 ≤ r.1 := by
  classical
  obtain ⟨m, hm, hmin⟩ :=
    Finset.exists_min_image S.toFinset f ⟨p0, List.mem_toFinset.mpr hp0⟩
  obtain ⟨q, hq, hqmin⟩ := Finset.exists_min_image
    (S.toFinset.filter (fun r => f r = f m)) (fun r => r.1)
    ⟨m, Finset.mem_filter.mpr ⟨hm, rfl⟩⟩
  obtain ⟨hqS, hqf⟩ := Finset.mem_filter.mp hq
  refine ⟨q, List.mem_toFinset.mp hqS, ?_, ?_⟩
  · intro r hr
    rw [hqf]
    exact hmin r (List.mem_toFinset.mpr hr)
  · intro r hr hfr
    exact hqmin r (Finset.mem_filter.mpr ⟨List.mem_toFinset.mpr hr, by rw [hfr, hqf]⟩)

/-- Core geometric fact: between two adjacent lower-hull vertices (no other
vertex composition strictly between them), every point of the set lies on or
above the tie line.  Otherwise the point of most negative vertical deficit
(leftmost among ties) would itself be a lower-hull vertex in the gap. -/
theorem no_vertex_between_supports (pts : List Pt) (u v : Pt)
    (hulow : LowestAt pts u) (huch : BelowChords pts u)
    (hvlow : LowestAt pts v) (hvch : BelowChords pts v)
    (huv : u.1 < v.1)
    (hgap : ∀ w ∈ pts, LowestAt pts w → BelowChords pts w →
      ¬(u.1 < w.1 ∧ w.1 < v.1)) :
    ∀ p ∈ pts, u.1 < p.1 → p.1 ≤ v.1 → lineValAt u v p.1 ≤ p.2 := by
  intro p hp hpl hpr
  rcases eq_or_lt_of_le hpr with hpv | hpv
  · rw [hpv, lineValAt_right u v (ne_of_lt huv)]
    exact hvlow p hp hpv
  · by_contra hcon
    push_neg at hcon
    set S := pts.filter (fun r => decide (u.1 < r.1 ∧ r.1 < v.1)) with hS
    have hmemS : ∀ r : Pt, r ∈ S ↔ r ∈ pts ∧ u.1 < r.1 ∧ r.1 < v.1 := by
      intro r
      rw [hS, List.mem_filter]
      simp
    have hpS : p ∈ S := (hmemS p).mpr ⟨hp, hpl, hpv⟩
    obtain ⟨q, hqS, hqmin, hqlex⟩ :=
      exists_lex_argmin S (fun r => r.2 - lineValAt u v r.1) p hpS
    obtain ⟨hqpts, hql, hqr⟩ := (hmemS q).mp hqS
    have hDq_neg : q.2 - lineValAt u v q.1 < 0 := by
      have := hqmin p hpS
      simp only at this
      linarith
    have hLu : lineValAt u v u.1 = u.2 := lineValAt_left u v
    have hLv : lineValAt u v v.1 = v.2 := lineValAt_right u v (ne_of_lt huv)
    have hqlow : LowestAt pts q := by
      intro r hr hre
      have hrS : r ∈ S := (hmemS r).mpr ⟨hr, hre ▸ hql, hre ▸ hqr⟩
      have := hqmin r hrS
      simp only at this
      rw [hre] at this
      linarith
    have hqch : BelowChords pts q := by
      intro a ha b hb hal hbl
      have hab : a.1 < b.1 := lt_trans hal hbl
      rw [cross_iff_lineVal a b q hab]
      set m1 : ℚ := lineGrad a b - lineGrad u v with hm1
      set c1 : ℚ := (a.2 - lineGrad a b * a.1) - (u.2 - lineGrad u v * u.1) with hc1
      have hH : ∀ t : ℚ, lineValAt a b t - lineValAt u v t = m1 * t + c1 := by
        intro t
        rw [hm1, hc1]
        simp only [lineValAt]
        ring
      have hLa : lineValAt a b a.1 = a.2 := lineValAt_left a b
      have hLb : lineValAt a b b.1 = b.2 := lineValAt_right a b (ne_of_lt hab)
      have hleft : ∃ xL, xL < q.1 ∧ q.2 - lineValAt u v q.1 < m1 * xL + c1 := by
        rcases lt_trichotomy a.1 u.1 with ha3 | ha2 | ha1
        · refine ⟨u.1, hql, ?_⟩
          have hcr := huch a ha b hb ha3 (lt_trans hql hbl)
          rw [cross_iff_lineVal a b u hab] at hcr
          have := hH u.1
          rw [hLu] at this
          linarith
        · refine ⟨a.1, hal, ?_⟩
          have hua : u.2 ≤ a.2 := hulow a ha ha2
          have hha := hH a.1
          rw [hLa] at hha
          rw [ha2] at hha ⊢
          rw [hLu] at hha
          linarith
        · have haS : a ∈ S := (hmemS a).mpr ⟨ha, ha1, lt_trans hal hqr⟩
          refine ⟨a.1, hal, ?_⟩
          have hge := hqmin a haS
          simp only at hge
          have hne2 : a.2 - lineValAt u v a.1 ≠ q.2 - lineValAt u v q.1 := by
            intro heq
            exact absurd (hqlex a haS heq) (not_le.mpr hal)
          have := hH a.1
          rw [hLa] at this
          have hstrict : q.2 - lineValAt u v q.1 < a.2 - lineValAt u v a.1 :=
            lt_of_le_of_ne hge (Ne.symm hne2)
          linarith
      have hright : ∃ xR, q.1 < xR ∧ q.2 - lineValAt u v q.1 ≤ m1 * xR + c1 := by
        rcases lt_trichotomy b.1 v.1 with hb1 | hb2 | hb3
        · have hbS : b ∈ S := (hmemS b).mpr ⟨hb, lt_trans hql hbl, hb1⟩
          refine ⟨b.1, hbl, ?_⟩
          have hge := hqmin b hbS
          simp only at hge
          have := hH b.1
          rw [hLb] at this
          linarith
        · refine ⟨b.1, hbl, ?_⟩
          have hvb : v.2 ≤ b.2 := hvlow b hb hb2
          have hhb := hH b.1
          rw [hLb] at hhb
          rw [hb2] at hhb ⊢
          rw [hLv] at hhb
          linarith
        · refine ⟨v.1, hqr, ?_⟩
          have hcr := hvch a ha b hb (lt_trans hal hqr) hb3
          rw [cross_iff_lineVal a b v hab] at hcr
          have := hH v.1
          rw [hLv] at this
          linarith
      obtain ⟨xL, hxL, hL⟩ := hleft
      obtain ⟨xR, hxR, hR⟩ := hright
      have hmain := affine_bound m1 c1 (q.2 - lineValAt u v q.1) xL xR q.1 hxL hxR hL hR
      have := hH q.1
      linarith
    exact hgap q hqpts hqlow hqch ⟨hql, hqr⟩

/-- Every hull point is an input point satisfying both vertex properties. -/
theorem hullPts_mem_props (pts : List Pt) : ∀ w ∈ hullPts pts,
    w ∈ pts ∧ LowestAt pts w ∧ BelowChords pts w := by
  intro w hw
  have h1 := mem_dedupX _ w hw
  have h2 := (mem_sortX w _).mp h1
  have h3 := List.mem_filter.mp h2
  exact ⟨h3.1, ((isLowerVertex_iff pts w).mp h3.2).1,
    ((isLowerVertex_iff pts w).mp h3.2).2⟩

/-- Every vertex composition appears among the hull compositions. -/
theorem vertex_comp_mem_hull (pts : List Pt) (w : Pt) (hw : w ∈ pts)
    (h1 : LowestAt pts w) (h2 : BelowChords pts w) :
    ∃ b ∈ hullPts pts, b.1 = w.1 := by
  have hf : w ∈ pts.filter (fun p => isLowerVertexB pts p) :=
    List.mem_filter.mpr ⟨hw, (isLowerVertex_iff pts w).mpr ⟨h1, h2⟩⟩
  exact fst_mem_dedupX _ w ((mem_sortX w _).mpr hf)

/-- The hull point list is strictly sorted by composition. -/
theorem pairwise_hullPts (pts : List Pt) :
    List.Pairwise (fun u v : Pt => u.1 < v.1) (hullPts pts) :=
  pairwise_lt_dedupX _ (pairwise_sortX _)

/-- In the assembled point set, compositions lie in `[0, 1]`. -/
theorem assembled_bounds (inner : List Pt)
    (hin : ∀ p ∈ inner, 0 < p.1 ∧ p.1 < 1) :
    ∀ p ∈ assembled inner, 0 ≤ p.1 ∧ p.1 ≤ 1 := by
  intro p hp
  rcases List.mem_cons.mp hp with rfl | hp2
  · norm_num
  · rcases List.mem_append.mp hp2 with hpi | hpe
    · obtain ⟨h1, h2⟩ := hin p hpi
      exact ⟨le_of_lt h1, le_of_lt h2⟩
    · rcases List.mem_singleton.mp hpe with rfl
      norm_num

/-- The only assembled point at composition `0` is the `(0,0)` endpoint. -/
theorem assembled_at0 (inner : List Pt)
    (hin : ∀ p ∈ inner, 0 < p.1 ∧ p.1 < 1) :
    ∀ p ∈ assembled inner, p.1 = 0 → p = ((0 : ℚ), (0 : ℚ)) := by
  intro p hp h0
  rcases List.mem_cons.mp hp with rfl | hp2
  · rfl
  · rcases List.mem_append.mp hp2 with hpi | hpe
    · exact absurd h0 (ne_of_gt (hin p hpi).1)
    · rcases List.mem_singleton.mp hpe with rfl
      norm_num at h0

/-- The only assembled point at composition `1` is the `(1,0)` endpoint. -/
theorem assembled_at1 (inner : List Pt)
    (hin : ∀ p ∈ inner, 0 < p.1 ∧ p.1 < 1) :
    ∀ p ∈ assembled inner, p.1 = 1 → p = ((1 : ℚ), (0 : ℚ)) := by
  intro p hp h1
  rcases List.mem_cons.mp hp with rfl | hp2
  · norm_num at h1
  · rcases List.mem_append.mp hp2 with hpi | hpe
    · exact absurd h1 (ne_of_lt (hin p hpi).2)
    · exact List.mem_singleton.mp hpe

/-- Both chemical-potential endpoints are lower-hull vertices of the
assembled point set and appear among the hull points. -/
theorem assembled_endpoints_mem_hull (inner : List Pt)
    (hin : ∀ p ∈ inner, 0 < p.1 ∧ p.1 < 1) :
    ((0 : ℚ), (0 : ℚ)) ∈ hullPts (assembled inner) ∧
    ((1 : ℚ), (0 : ℚ)) ∈ hullPts (assembled inner) := by
  have hb := assembled_bounds inner hin
  have h00 : ((0 : ℚ), (0 : ℚ)) ∈ assembled inner := List.mem_cons_self _ _
  have h10 : ((1 : ℚ), (0 : ℚ)) ∈ assembled inner := by
    rw [assembled]
    exact List.mem_cons_of_mem _ (List.mem_append_right _ (List.mem_singleton.mpr rfl))
  constructor
  · have hlow : LowestAt (assembled inner) (0, 0) := by
      intro q hq hq0
      have := assembled_at0 inner hin q hq hq0
      rw [this]
    have hch : BelowChords (assembled inner) (0, 0) := by
      intro a ha b _ hal _
      exact absurd hal (not_lt.mpr (hb a ha).1)
    obtain ⟨b, hbmem, hb1⟩ := vertex_comp_mem_hull _ _ h00 hlow hch
    have hbpts := (hullPts_mem_props _ b hbmem).1
    have : b = ((0 : ℚ), (0 : ℚ)) := assembled_at0 inner hin b hbpts hb1
    rwa [this] at hbmem
  · have hlow : LowestAt (assembled inner) (1, 0) := by
      intro q hq hq1
      have := assembled_at1 inner hin q hq hq1
      rw [this]
    have hch : BelowChords (assembled inner) (1, 0) := by
      intro a _ b hbm _ hbl
      exact absurd hbl (not_lt.mpr (hb b hbm).2)
    obtain ⟨b, hbmem, hb1⟩ := vertex_comp_mem_hull _ _ h10 hlow hch
    have hbpts := (hullPts_mem_props _ b hbmem).1
    have : b = ((1 : ℚ), (0 : ℚ)) := assembled_at1 inner hin b hbpts hb1
    rwa [this] at hbmem

theorem pairwise_hullCompList (pts : List Pt) :
    List.Pairwise (· < ·) (hullCompList pts) := by
  rw [hullCompList]
  exact List.pairwise_map.mpr (pairwise_hullPts pts)

/-- The hull point list of an assembled set has the `(0,0)` endpoint first
and the `(1,0)` endpoint last. -/
theorem assembled_hull_ends (inner : List Pt)
    (hin : ∀ p ∈ inner, 0 < p.1 ∧ p.1 < 1) :
    2 ≤ (hullPts (assembled inner)).length ∧
    (hullPts (assembled inner)).getD 0 (0, 0) = ((0 : ℚ), (0 : ℚ)) ∧
    (hullPts (assembled inner)).getD ((hullPts (assembled inner)).length - 1) (0, 0) =
      ((1 : ℚ), (0 : ℚ)) := by
  obtain ⟨h00, h10⟩ := assembled_endpoints_mem_hull inner hin
  have hpw := pairwise_hullPts (assembled inner)
  have hget := List.pairwise_iff_get.mp hpw
  have hbounds : ∀ w ∈ hullPts (assembled inner), 0 ≤ w.1 ∧ w.1 ≤ 1 := fun w hw =>
    assembled_bounds inner hin w (hullPts_mem_props _ w hw).1
  obtain ⟨⟨j0, hj0lt⟩, hj0⟩ := List.mem_iff_get.mp h00
  obtain ⟨⟨j1, hj1lt⟩, hj1⟩ := List.mem_iff_get.mp h10
  have hne : j0 ≠ j1 := by
    intro he
    have hsame : (hullPts (assembled inner)).get ⟨j0, hj0lt⟩ =
        (hullPts (assembled inner)).get ⟨j1, hj1lt⟩ := by
      congr 1
      exact Fin.ext he
    rw [hj0, hj1] at hsame
    have h01 : (0 : ℚ) = 1 := congrArg Prod.fst hsame
    norm_num at h01
  have hlen2 : 2 ≤ (hullPts (assembled inner)).length := by omega
  have hj00 : j0 = 0 := by
    by_contra hj0ne
    have h0lt : (⟨0, by omega⟩ : Fin (hullPts (assembled inner)).length) < ⟨j0, hj0lt⟩ :=
      Nat.pos_of_ne_zero hj0ne
    have hcmp := hget ⟨0, by omega⟩ ⟨j0, hj0lt⟩ h0lt
    rw [hj0] at hcmp
    have hb := (hbounds _ (List.get_mem _ 0 (by omega))).1
    rw [List.get_eq_getElem] at hb
    simp at hcmp
    linarith [hb]
  have hj1last : j1 = (hullPts (assembled inner)).length - 1 := by
    by_contra hj1ne
    have hlt : (⟨j1, hj1lt⟩ : Fin (hullPts (assembled inner)).length) <
        ⟨(hullPts (assembled inner)).length - 1, by omega⟩ := by
      show j1 < (hullPts (assembled inner)).length - 1
      omega
    have hcmp := hget ⟨j1, hj1lt⟩ ⟨(hullPts (assembled inner)).length - 1, by omega⟩ hlt
    rw [hj1] at hcmp
    have hb := (hbounds _
      (List.get_mem _ ((hullPts (assembled inner)).length - 1) (by omega))).2
    rw [List.get_eq_getElem] at hb
    simp at hcmp
    linarith [hb]
  refine ⟨hlen2, ?_, ?_⟩
  · rw [List.getD_eq_getElem _ _ (by omega : 0 < (hullPts (assembled inner)).length)]
    rw [← hj0]
    simp [hj00]
  · rw [List.getD_eq_getElem _ _
      (by omega : (hullPts (assembled inner)).length - 1 < (hullPts (assembled inner)).length)]
    rw [← hj1]
    simp [hj1last]

theorem pyGet_neg_one (l : List ℚ) : pyGet l (-1) = l.getD (l.length - 1) 0 := by
  rw [pyGet, if_pos (by norm_num)]
  norm_num

theorem pyGet_ofNat (l : List ℚ) (n : ℕ) : pyGet l (n : ℤ) = l.getD n 0 := by
  rw [pyGet, if_neg (by omega)]
  simp

theorem pyGet_sub_one (l : List ℚ) (n : ℕ) (h : 1 ≤ n) :
    pyGet l ((n : ℤ) - 1) = l.getD (n - 1) 0 := by
  rw [pyGet, if_neg (by omega)]
  congr 1
  omega

theorem hullCompList_getD (pts : List Pt) (j : ℕ) (hj : j < (hullPts pts).length) :
    (hullCompList pts).getD j 0 = ((hullPts pts).get ⟨j, hj⟩).1 := by
  rw [hullCompList, List.getD_eq_getElem _ _ (by rw [List.length_map]; exact hj),
    List.getElem_map, List.get_eq_getElem]

theorem hullEnergyList_getD (pts : List Pt) (j : ℕ) (hj : j < (hullPts pts).length) :
    (hullEnergyList pts).getD j 0 = ((hullPts pts).get ⟨j, hj⟩).2 := by
  rw [hullEnergyList, List.getD_eq_getElem _ _ (by rw [List.length_map]; exact hj),
    List.getElem_map, List.get_eq_getElem]

theorem pairwise_get_le (l : List Pt)
    (h : List.Pairwise (fun a b : Pt => a.1 < b.1) l)
    (i j : ℕ) (hi : i < l.length) (hj : j < l.length) (hij : i ≤ j) :
    (l.get ⟨i, hi⟩).1 ≤ (l.get ⟨j, hj⟩).1 := by
  rcases eq_or_lt_of_le hij with rfl | hlt
  · exact le_of_eq rfl
  · exact le_of_lt (List.pairwise_iff_get.mp h ⟨i, hi⟩ ⟨j, hj⟩ hlt)

/-- C2: with exact (rational) arithmetic no point of the assembled set lies
below the computed lower hull: for every point — each structure with
composition strictly inside `(0,1)` plus the two chemical-potential
endpoints `(0,0)` and `(1,0)` — the hull distance computed by lines 249-259
of `binary_hull` (vertical gap to the line through the bracketing pair of
adjacent lower-hull compositions found by `bisect_left`) is nonnegative,
hence in particular at least `-1e-12`. -/
theorem hull_dist_nonneg (inner : List Pt)
    (hin : ∀ p ∈ inner, 0 < p.1 ∧ p.1 < 1) :
    ∀ p ∈ assembled inner,
      0 ≤ hull_dist_at (hullCompList (assembled inner))
        (hullEnergyList (assembled inner)) p := by
  intro p hp
  obtain ⟨hlen2, hfirst, hlast⟩ := assembled_hull_ends inner hin
  have hclen : (hullCompList (assembled inner)).length =
      (hullPts (assembled inner)).length := by
    rw [hullCompList, List.length_map]
  have helen : (hullEnergyList (assembled inner)).length =
      (hullPts (assembled inner)).length := by
    rw [hullEnergyList, List.length_map]
  have hcpw : List.Pairwise (· < ·) (hullCompList (assembled inner)) :=
    pairwise_hullCompList (assembled inner)
  obtain ⟨hp0, hp1⟩ := assembled_bounds inner hin p hp
  have hc0 : (hullCompList (assembled inner)).getD 0 0 = 0 := by
    rw [hullCompList, List.getD_eq_getElem _ _ (by rw [List.length_map]; omega),
      List.getElem_map, ← List.getD_eq_getElem _ (0, 0) (by omega), hfirst]
  have hclast : (hullCompList (assembled inner)).getD
      ((hullCompList (assembled inner)).length - 1) 0 = 1 := by
    rw [hclen, hullCompList, List.getD_eq_getElem _ _ (by rw [List.length_map]; omega),
      List.getElem_map, ← List.getD_eq_getElem _ (0, 0) (by omega), hlast]
  have he0 : (hullEnergyList (assembled inner)).getD 0 0 = 0 := by
    rw [hullEnergyList, List.getD_eq_getElem _ _ (by rw [List.length_map]; omega),
      List.getElem_map, ← List.getD_eq_getElem _ (0, 0) (by omega), hfirst]
  have helast : (hullEnergyList (assembled inner)).getD
      ((hullEnergyList (assembled inner)).length - 1) 0 = 0 := by
    rw [helen, hullEnergyList, List.getD_eq_getElem _ _ (by rw [List.length_map]; omega),
      List.getElem_map, ← List.getD_eq_getElem _ (0, 0) (by omega), hlast]
  rcases eq_or_lt_of_le hp0 with hx0 | hx0
  · -- the point sits at composition 0: it is the (0,0) endpoint itself
    have hpe : p = ((0 : ℚ), (0 : ℚ)) := assembled_at0 inner hin p hp hx0.symm
    have hi0 : bisect_left (hullCompList (assembled inner)) p.1 = 0 := by
      rw [bisect_left, List.countP_eq_zero]
      intro c hc
      simp only [decide_eq_true_eq]
      rw [hullCompList] at hc
      obtain ⟨w, hw, rfl⟩ := List.mem_map.mp hc
      have hwb := (assembled_bounds inner hin w (hullPts_mem_props _ w hw).1).1
      rw [← hx0]
      exact not_lt.mpr hwb
    simp only [hull_dist_at, hi0]
    rw [show ((0 : ℕ) : ℤ) - 1 = -1 by norm_num, pyGet_neg_one, pyGet_neg_one,
      show ((0 : ℕ) : ℤ) = ((0 : ℕ) : ℤ) from rfl, pyGet_ofNat, pyGet_ofNat]
    rw [hc0, hclast, he0, helast, hpe]
    norm_num
  · -- strictly positive composition: genuine bracketing pair
    have hiN1 : 1 ≤ bisect_left (hullCompList (assembled inner)) p.1 := by
      by_contra hcon
      push_neg at hcon
      have h0 : bisect_left (hullCompList (assembled inner)) p.1 = 0 := by omega
      have hle := countP_le_get p.1 (hullCompList (assembled inner)) hcpw 0
        (by omega) (by rw [← bisect_left, h0])
      rw [List.get_eq_getElem, ← List.getD_eq_getElem _ 0 (by omega), hc0] at hle
      linarith
    have hiNlt : bisect_left (hullCompList (assembled inner)) p.1 <
        (hullCompList (assembled inner)).length := by
      by_contra hcon
      push_neg at hcon
      have hle : bisect_left (hullCompList (assembled inner)) p.1 ≤
          (hullCompList (assembled inner)).length := List.countP_le_length _
      have heq : bisect_left (hullCompList (assembled inner)) p.1 =
          (hullCompList (assembled inner)).length := le_antisymm hle hcon
      have hlt := countP_lt_get p.1 (hullCompList (assembled inner)) hcpw
        ((hullCompList (assembled inner)).length - 1) (by omega)
        (by rw [← bisect_left, heq]; omega)
      rw [List.get_eq_getElem, ← List.getD_eq_getElem _ 0 (by omega), hclast] at hlt
      linarith
    have hbr1 := countP_lt_get p.1 (hullCompList (assembled inner)) hcpw
      (bisect_left (hullCompList (assembled inner)) p.1 - 1) (by omega)
      (by rw [← bisect_left]; omega)
    have hbr2 := countP_le_get p.1 (hullCompList (assembled inner)) hcpw
      (bisect_left (hullCompList (assembled inner)) p.1) (by omega)
      (by rw [← bisect_left])
    have hiN1v : bisect_left (hullCompList (assembled inner)) p.1 - 1 <
        (hullPts (assembled inner)).length := by omega
    have hiNv : bisect_left (hullCompList (assembled inner)) p.1 <
        (hullPts (assembled inner)).length := by omega
    have hcu := hullCompList_getD (assembled inner) _ hiN1v
    have hcv := hullCompList_getD (assembled inner) _ hiNv
    have heu := hullEnergyList_getD (assembled inner) _ hiN1v
    have hev := hullEnergyList_getD (assembled inner) _ hiNv
    obtain ⟨hupts, hulow, huch⟩ := hullPts_mem_props _ _
      (List.get_mem (hullPts (assembled inner)) _ hiN1v)
    obtain ⟨hvpts, hvlow, hvch⟩ := hullPts_mem_props _ _
      (List.get_mem (hullPts (assembled inner)) _ hiNv)
    have huv : ((hullPts (assembled inner)).get ⟨_, hiN1v⟩).1 <
        ((hullPts (assembled inner)).get ⟨_, hiNv⟩).1 :=
      List.pairwise_iff_get.mp (pairwise_hullPts (assembled inner))
        ⟨_, hiN1v⟩ ⟨_, hiNv⟩ (by simp only [Fin.mk_lt_mk]; omega)
    have hul : ((hullPts (assembled inner)).get ⟨_, hiN1v⟩).1 < p.1 := by
      rw [List.get_eq_getElem, ← List.getD_eq_getElem _ 0 (by omega), hcu] at hbr1
      exact hbr1
    have hvr : p.1 ≤ ((hullPts (assembled inner)).get ⟨_, hiNv⟩).1 := by
      rw [List.get_eq_getElem, ← List.getD_eq_getElem _ 0 (by omega), hcv] at hbr2
      exact hbr2
    have hgap : ∀ w ∈ assembled inner, LowestAt (assembled inner) w →
        BelowChords (assembled inner) w →
        ¬(((hullPts (assembled inner)).get ⟨_, hiN1v⟩).1 < w.1 ∧
          w.1 < ((hullPts (assembled inner)).get ⟨_, hiNv⟩).1) := by
      rintro w hw hwl hwc ⟨hw1, hw2⟩
      obtain ⟨b, hbmem, hb1⟩ := vertex_comp_mem_hull _ w hw hwl hwc
      obtain ⟨⟨j, hjlt⟩, hbj⟩ := List.mem_iff_get.mp hbmem
      rcases lt_or_ge j (bisect_left (hullCompList (assembled inner)) p.1) with hj2 | hj2
      · have hble := pairwise_get_le _ (pairwise_hullPts (assembled inner))
          j (bisect_left (hullCompList (assembled inner)) p.1 - 1) hjlt hiN1v (by omega)
        rw [hbj, hb1] at hble
        linarith
      · have hble := pairwise_get_le _ (pairwise_hullPts (assembled inner))
          (bisect_left (hullCompList (assembled inner)) p.1) j hiNv hjlt hj2
        rw [hbj, hb1] at hble
        linarith
    have hsup := no_vertex_between_supports (assembled inner) _ _
      hulow huch hvlow hvch huv hgap p hp hul hvr
    simp only [hull_dist_at]
    rw [pyGet_sub_one _ _ hiN1, pyGet_sub_one _ _ hiN1, pyGet_ofNat, pyGet_ofNat]
    rw [hcu, hcv, heu, hev]
    rw [lineValAt, lineGrad] at hsup
    have hne2 : ((hullPts (assembled inner)).get ⟨_, hiNv⟩).1 -
        ((hullPts (assembled inner)).get ⟨_, hiN1v⟩).1 ≠ 0 := by linarith
    have hkey := div_mul_cancel₀
      (((hullPts (assembled inner)).get ⟨_, hiNv⟩).2 -
        ((hullPts (assembled inner)).get ⟨_, hiN1v⟩).2) hne2
    nlinarith [hsup, hkey]

/-- C2 (witness): the nonnegativity applied to the concrete one-compound
point set at the compound's own point. -/
theorem hull_dist_nonneg_witness :
    0 ≤ hull_dist_at (hullCompList (assembled [((1 / 2 : ℚ), -(1 / 2 : ℚ))]))
      (hullEnergyList (assembled [((1 / 2 : ℚ), -(1 / 2 : ℚ))]))
      ((1 / 2 : ℚ), -(1 / 2 : ℚ)) :=
  hull_dist_nonneg [((1 / 2 : ℚ), -(1 / 2 : ℚ))] (by norm_num)
    ((1 / 2 : ℚ), -(1 / 2 : ℚ)) (by simp [assembled])

theorem leadsList_refl : ∀ l : List Char, leadsList l l = true := by
  intro l
  induction l with
  | nil => rfl
  | cons c t ih => simp [leadsList, ih]

theorem pyIn_refl (l : List Char) : pyIn l l = true := by
  cases l with
  | nil => rfl
  | cons c t => simp [pyIn, occursIn, leadsList_refl (c :: t)]

/-- The hull point list of the end-to-end scenario 1 of the spec. -/
theorem hullPts_scenario : hullPts (assembled [((1 / 2 : ℚ), -(1 / 2 : ℚ))]) =
    [((0 : ℚ), (0 : ℚ)), ((1 / 2 : ℚ), -(1 / 2 : ℚ)), ((1 : ℚ), (0 : ℚ))] := by
  norm_num [hullPts, assembled, isLowerVertexB, lowestAtB, belowChordsB,
    List.filter, List.all, sortX, insertX, dedupX]

/-- C1: the per-atom formation energy computed by the per-record loop equals
the enthalpy per atom minus the mole-fraction-weighted sum of the two
chemical potentials' per-atom energies, for any record whose two
stoichiometry entries carry the two elements of the system (in either
order, the first element's symbol not occurring inside the second's, with a
positive atom count).  Moreover, in the spec's end-to-end scenario 1
(references at `-1.0` and `-2.0`, one equal-ratio compound at `-2.0`), the
computed formation energy is `-0.5`, the point `(0.5, -0.5)` is a vertex of
the lower hull, and its hull distance is `0`. -/
theorem formation_energy_weighted (xe ome : List Char) (muA muB : ℚ)
    (doc : DocRec) (e1 e2 : List Char) (n1 n2 : ℚ)
    (hst : doc.stoichiometry = [(e1, n1), (e2, n2)])
    (horder : (e1 = xe ∧ e2 = ome) ∨ (e1 = ome ∧ e2 = xe))
    (hne : xe ≠ ome)
    (hsub : pyIn xe ome = false)
    (hpos : 0 < n1 + n2)
    (out : RecordOut)
    (hout : processRecord xe ome [⟨xe, muA⟩, ⟨ome, muB⟩] doc = Except.ok out) :
    out.formation = doc.enthalpy_per_atom -
      (out.stoich * muA + (1 - out.stoich) * muB) ∧
    (processRecord [('A' : Char)] [('B' : Char)]
      [⟨[('A' : Char)], -1⟩, ⟨[('B' : Char)], -2⟩]
      { stoichiometry := [([('A' : Char)], 1), ([('B' : Char)], 1)], num_fu := 1,
        enthalpy := -4, enthalpy_per_atom := -2, cell_volume := 10 } =
      Except.ok ⟨-4, -(1 / 2), 1 / 2, XQ.fin 1, 10⟩) ∧
    ((1 / 2 : ℚ), -(1 / 2 : ℚ)) ∈ hullPts (assembled [((1 / 2 : ℚ), -(1 / 2 : ℚ))]) ∧
    hull_dist_at (hullCompList (assembled [((1 / 2 : ℚ), -(1 / 2 : ℚ))]))
      (hullEnergyList (assembled [((1 / 2 : ℚ), -(1 / 2 : ℚ))]))
      ((1 / 2 : ℚ), -(1 / 2 : ℚ)) = 0 := by
  refine ⟨?_, ?_, ?_, ?_⟩
  · have hpne : n1 + n2 ≠ 0 := ne_of_gt hpos
    rcases horder with ⟨rfl, rfl⟩ | ⟨rfl, rfl⟩
    · simp only [processRecord, listIdx, hst, List.get?, Except.bind, bind,
        Except.instMonad, if_neg hne, if_pos rfl, List.foldl, pyIn_refl, hsub,
        if_neg (Ne.symm hne), if_true, if_false, Bool.false_eq_true] at hout
      obtain rfl := (Except.ok.inj hout).symm
      simp only
      field_simp
      ring
    · simp only [processRecord, listIdx, hst, List.get?, Except.bind, bind,
        Except.instMonad, if_neg hne, if_pos rfl, List.foldl, pyIn_refl, hsub,
        if_neg (Ne.symm hne), if_true, if_false, Bool.false_eq_true] at hout
      obtain rfl := (Except.ok.inj hout).symm
      simp only
      field_simp
      ring
  · norm_num [processRecord, listIdx, pyIn, occursIn, leadsList, List.foldl,
      Except.bind, bind, Except.instMonad]
    rw [if_neg (by decide), if_neg (by decide)]
    norm_num
  · rw [hullPts_scenario]
    norm_num
  · norm_num [hull_dist_at, hullCompList, hullEnergyList, hullPts_scenario,
      bisect_left, List.countP, List.countP.go, pyGet]

/-- C1 (witness): the theorem applied to the scenario record itself. -/
theorem formation_energy_weighted_witness :
    (⟨-4, -(1 / 2), 1 / 2, XQ.fin 1, 10⟩ : RecordOut).formation =
      (-2 : ℚ) - ((⟨-4, -(1 / 2), 1 / 2, XQ.fin 1, 10⟩ : RecordOut).stoich * (-1) +
        (1 - (⟨-4, -(1 / 2), 1 / 2, XQ.fin 1, 10⟩ : RecordOut).stoich) * (-2)) ∧
    (processRecord [('A' : Char)] [('B' : Char)]
      [⟨[('A' : Char)], -1⟩, ⟨[('B' : Char)], -2⟩]
      { stoichiometry := [([('A' : Char)], 1), ([('B' : Char)], 1)], num_fu := 1,
        enthalpy := -4, enthalpy_per_atom := -2, cell_volume := 10 } =
      Except.ok ⟨-4, -(1 / 2), 1 / 2, XQ.fin 1, 10⟩) ∧
    ((1 / 2 : ℚ), -(1 / 2 : ℚ)) ∈ hullPts (assembled [((1 / 2 : ℚ), -(1 / 2 : ℚ))]) ∧
    hull_dist_at (hullCompList (assembled [((1 / 2 : ℚ), -(1 / 2 : ℚ))]))
      (hullEnergyList (assembled [((1 / 2 : ℚ), -(1 / 2 : ℚ))]))
      ((1 / 2 : ℚ), -(1 / 2 : ℚ)) = 0 :=
  formation_energy_weighted [('A' : Char)] [('B' : Char)] (-1) (-2)
    { stoichiometry := [([('A' : Char)], 1), ([('B' : Char)], 1)], num_fu := 1,
      enthalpy := -4, enthalpy_per_atom := -2, cell_volume := 10 }
    [('A' : Char)] [('B' : Char)] 1 1 rfl (Or.inl ⟨rfl, rfl⟩)
    (by decide) (by decide) (by norm_num)
    ⟨-4, -(1 / 2), 1 / 2, XQ.fin 1, 10⟩
    (by
      norm_num [processRecord, listIdx, pyIn, occursIn, leadsList, List.foldl,
        Except.bind, bind, Except.instMonad]
      rw [if_neg (by decide), if_neg (by decide)]
      norm_num)

end Matador
